import Mathlib

/-!
Verification development for the `dw1000` driver core.

Shallow embedding of the register-level protocol (`src/ll.rs`), the
high-level transceiver control flow (`src/hl.rs`) and the time utilities
(`src/util.rs`).  Byte values are modelled as `Nat` below 256; machine
arithmetic that truncates in Rust is modelled with explicit `% 256`
(resp. `% 2^w`) operations.  Code of the repository that is not under
`src/` (the `time` module holding `Instant`/`Duration`, the crate-level
`TIME_MAX` constant and a few registers referenced only from `hl.rs`)
is modelled from the specification text and clearly marked as such.
-/

namespace Dw1000

/-- A buffer is a list of byte values, each below 256. -/
def Bytes (l : List Nat) : Prop := ∀ b ∈ l, b < 256

/-- Little-endian interpretation used by `FromBytes` in `src/ll.rs`:
`bytes[0] | bytes[1] << 8 | ...` over the first `size` bytes.  The Rust
implementations for u8/u16/u32/u64 are the instances of this scheme at
`size` 1, 2, 4 and 8. -/
def fromBytes : Nat → List Nat → Nat
  | 0, _ => 0
  | _ + 1, [] => 0
  | size + 1, b :: rest => b + 256 * fromBytes size rest

/-- Little-endian splitting used by `ToBytes` in `src/ll.rs`: byte `k` is
`(value >> 8*k) & 0xff`. -/
def toBytes : Nat → Nat → List Nat
  | 0, _ => []
  | size + 1, v => (v % 256) :: toBytes size (v / 256)

/-- `init_header` from `src/ll.rs`: builds the 1-3 byte bus header for a
register with the given `id` and `subId` into `buffer`, returning the
updated buffer together with the header length.  Mirrors the source
(the source exits early on `!sub_id` resp. `!ext_addr`; here the early
returns appear as the else-branches):
byte 0 is `(write << 7) & 0x80 | (sub_id << 6) & 0x40 | id & 0x3f`;
byte 1 (only when `subId > 0`) is `(ext << 7) & 0x80 | (subId as u8) & 0x7f`;
byte 2 (only when `subId > 127`) is `((subId & 0x7f80) >> 7) as u8`. -/
def init_header (id subId : Nat) (write : Bool) (buffer : List Nat) :
    List Nat × Nat :=
  let b0 :=
    (((if write then 1 else 0) <<< 7) &&& 0x80) |||
    ((((if 0 < subId then 1 else 0) <<< 6) &&& 0x40) |||
    (id &&& 0x3f))
  let buffer1 := buffer.set 0 b0
  if 0 < subId then
    let b1 :=
      (((if 127 < subId then 1 else 0) <<< 7) &&& 0x80) |||
      ((subId % 256) &&& 0x7f)
    let buffer2 := buffer1.set 1 b1
    if 127 < subId then
      (buffer2.set 2 (((subId &&& 0x7f80) >>> 7) % 256), 3)
    else
      (buffer2, 2)
  else
    (buffer1, 1)

/-- Number of set bits of a byte value, as computed by `u8::count_ones`
(used by the field setter in `src/ll.rs` to size each write mask). -/
def countOnes8 (n : Nat) : Nat :=
  n % 2 + n / 2 % 2 + n / 4 % 2 + n / 8 % 2 +
  n / 16 % 2 + n / 32 % 2 + n / 64 % 2 + n / 128 % 2

/-- Tail of the right-shift phase of the generated field accessor in
`src/ll.rs` (the loop `bytes[i-1] |= bytes[i] << 8 - OFFSET_IN_BYTE;
bytes[i] >>= OFFSET_IN_BYTE`): `prev` is the already-shifted previous byte,
the list holds the not-yet-shifted remaining bytes. -/
def shiftCarry (off : Nat) (prev : Nat) : List Nat → List Nat
  | [] => [prev]
  | b :: rest => (prev ||| ((b <<< (8 - off)) % 256)) :: shiftCarry off (b >>> off) rest

/-- Right-shift phase of the generated field accessor: performed only when
`OFFSET_IN_BYTE > 0`, starting with `bytes[0] >>= OFFSET_IN_BYTE`. -/
def decodeShift (off : Nat) : List Nat → List Nat
  | [] => []
  | b :: rest => if 0 < off then shiftCarry off (b >>> off) rest else b :: rest

/-- Masking phase of the generated field accessor: when the field does not
fill its last byte (`BITS_ABOVE_FIELD < 8`), byte `size_of::<ty>() - 1` is
shifted up and back down (with u8 truncation) to clear the unrelated high
bits. -/
def maskLast (width size : Nat) (bytes : List Nat) : List Nat :=
  if 8 - width % 8 < 8 then
    bytes.set (size - 1)
      ((((bytes.getD (size - 1) 0) <<< (8 - width % 8)) % 256) >>> (8 - width % 8))
  else bytes

/-- The generated field accessor (`impl R` in the `impl_register!` macro of
`src/ll.rs`): extract bytes `START .. END` of the payload, shift right by
`first_bit % 8` carrying bits across bytes, clear the bits above the field
in the last byte of the target type, and read the result as a little-endian
integer of `size` bytes (`size` is `size_of::<$ty>()`). -/
def fieldRead (firstBit lastBit size : Nat) (payload : List Nat) : Nat :=
  let START := firstBit / 8
  let END := lastBit / 8 + 1
  let bytes := (payload.drop START).take (END - START)
  let shifted := decodeShift (firstBit % 8) bytes
  let masked := maskLast (lastBit - firstBit + 1) size shifted
  fromBytes size masked

/-- Bit `p` of a byte buffer, little-endian within each byte: bit `p % 8`
of byte `p / 8`.  Used to state the bit-level properties of the field
codec. -/
def bitAt (buf : List Nat) (p : Nat) : Bool :=
  (buf.getD (p / 8) 0).testBit (p % 8)

/-- The mutable locals of the generated field setter's loop (`impl W` in the
`impl_register!` macro of `src/ll.rs`): current buffer, `bits_left`,
`bits_left_in_byte`, `bits_written_to_byte`, `source_i`, `target_i`. -/
structure WState where
  buf : List Nat
  bitsLeft : Nat
  bitsLeftInByte : Nat
  bitsWrittenToByte : Nat
  sourceI : Nat
  targetI : Nat

/-- `offset_in_this_byte` of one setter-loop iteration: `OFFSET_IN_BYTE`
on the first byte of the span, 0 elsewhere. -/
def offOf (firstBit : Nat) (st : WState) : Nat :=
  if st.targetI = firstBit / 8 then firstBit % 8 else 0

/-- The `mask` computed by one setter-loop iteration: start from `0xff`,
shift away the low bits on the first byte of the span, trim the high bits
on the last byte (`shift = 8 - bits_left - offset_in_this_byte`, applied
as `mask <<= shift; mask >>= shift` with u8 truncation), then shift up by
`bits_written_to_byte`. -/
def maskOf (firstBit lastBit : Nat) (st : WState) : Nat :=
  let mask1 : Nat :=
    if st.targetI = firstBit / 8 then (0xff <<< (firstBit % 8)) % 256 else 0xff
  let mask2 : Nat :=
    if st.targetI = lastBit / 8 then
      let sh := 8 - st.bitsLeft - offOf firstBit st
      ((mask1 <<< sh) % 256) >>> sh
    else mask1
  (mask2 <<< st.bitsWrittenToByte) % 256

/-- The `value` computed by one setter-loop iteration:
`source[source_i] >> (8 - bits_left_in_byte) << offset_in_this_byte
<< bits_written_to_byte`, with u8 truncation at each shift. -/
def valueOf (source : List Nat) (firstBit : Nat) (st : WState) : Nat :=
  (((((source.getD st.sourceI 0) >>> (8 - st.bitsLeftInByte))
      <<< offOf firstBit st) % 256) <<< st.bitsWrittenToByte) % 256

/-- `bits_used` of one setter-loop iteration: the number of mask bits
(`bits_needed`), capped by the bits available in the current source byte. -/
def usedOf (firstBit lastBit : Nat) (st : WState) : Nat :=
  min (countOnes8 (maskOf firstBit lastBit st))
    (st.bitsLeftInByte - offOf firstBit st)

/-- One iteration of the generated field setter's `while target_i < END`
loop, transcribed statement by statement from the source.  All u8
operations truncate with `% 256`; `!mask` on u8 is `255 ^^^ mask`. -/
def fieldWriteStep (firstBit lastBit : Nat) (source : List Nat)
    (st : WState) : WState :=
  let mask := maskOf firstBit lastBit st
  let value := valueOf source firstBit st
  let buf2 := st.buf.set st.targetI
    ((st.buf.getD st.targetI 0 &&& (255 ^^^ mask)) ||| (value &&& mask))
  let bitsNeeded := countOnes8 mask
  let bitsUsed := usedOf firstBit lastBit st
  let bitsLeftInByte2 :=
    if st.bitsLeftInByte > bitsUsed then st.bitsLeftInByte - bitsUsed
    else 8 - (bitsUsed - st.bitsLeftInByte)
  let sourceI2 :=
    if st.bitsLeftInByte > bitsUsed then st.sourceI else st.sourceI + 1
  let targetI2 := if bitsUsed = bitsNeeded then st.targetI + 1 else st.targetI
  let bw2 :=
    if bitsUsed = bitsNeeded then 0 else st.bitsWrittenToByte + bitsUsed
  ⟨buf2, st.bitsLeft - bitsUsed, bitsLeftInByte2, bw2, sourceI2, targetI2⟩

/-- The lower bit position (within the current target byte) of the mask of
one setter-loop iteration. -/
def loOf (firstBit : Nat) (st : WState) : Nat :=
  offOf firstBit st + st.bitsWrittenToByte

/-- One past the upper bit position (within the current target byte) of the
mask of one setter-loop iteration. -/
def hiOf (firstBit lastBit : Nat) (st : WState) : Nat :=
  if st.targetI = lastBit / 8 then
    offOf firstBit st + st.bitsWrittenToByte + st.bitsLeft
  else 8

/-- The generated field setter's loop with explicit fuel: iterate
`fieldWriteStep` while `target_i < END` (`END = last_bit / 8 + 1`). -/
def fieldWriteLoop (firstBit lastBit : Nat) (source : List Nat) :
    Nat → WState → List Nat
  | 0, st => st.buf
  | fuel + 1, st =>
    if st.targetI < lastBit / 8 + 1 then
      fieldWriteLoop firstBit lastBit source fuel
        (fieldWriteStep firstBit lastBit source st)
    else st.buf

/-- The generated field setter: split `v` into `size` little-endian source
bytes (`size` is `size_of::<$ty>()`) and run the write loop from
`target_i = first_bit / 8` with `bits_left = last_bit - first_bit + 1`,
`bits_left_in_byte = 8`, `bits_written_to_byte = 0`, `source_i = 0`.
The source's loop needs at most one iteration per field bit, so fuel
`lastBit - firstBit + 2` is never exhausted. -/
def fieldWrite (firstBit lastBit size : Nat) (payload : List Nat) (v : Nat) :
    List Nat :=
  fieldWriteLoop firstBit lastBit (toBytes size v) (lastBit - firstBit + 2)
    ⟨payload, lastBit - firstBit + 1, 8, 0, 0, firstBit / 8⟩

/-- The loop invariant of the generated field setter, relating a loop state
to the original payload `payload0` and the field value `v`: buffer length
and byte-range are preserved; `bits_left` counts the field bits not yet
written; `source_i`/`bits_left_in_byte` track the consumed source bits;
`target_i`/`bits_written_to_byte` track the next buffer bit position; and
the buffer holds the first `W - bits_left` field bits, a zeroed
partially-written gap when `bits_written_to_byte > 0`, and the original
payload everywhere else. -/
def WInv (fb lb v : Nat) (payload0 : List Nat) (st : WState) : Prop :=
  st.buf.length = payload0.length ∧
  (∀ j, st.buf.getD j 0 < 256) ∧
  st.bitsLeft ≤ lb - fb + 1 ∧
  1 ≤ st.bitsLeftInByte ∧ st.bitsLeftInByte ≤ 8 ∧
  8 * st.sourceI + (8 - st.bitsLeftInByte) = (lb - fb + 1) - st.bitsLeft ∧
  (st.targetI = fb / 8 →
    st.bitsWrittenToByte = 0 ∧ st.bitsLeftInByte = 8 ∧ st.sourceI = 0 ∧
    st.bitsLeft = lb - fb + 1) ∧
  fb / 8 ≤ st.targetI ∧ st.targetI ≤ lb / 8 + 1 ∧
  (st.targetI < lb / 8 + 1 →
    1 ≤ st.bitsLeft ∧
    8 * st.targetI + st.bitsWrittenToByte +
      (if st.targetI = fb / 8 then fb % 8 else 0) =
      fb + ((lb - fb + 1) - st.bitsLeft) ∧
    (if st.targetI = fb / 8 then fb % 8 else 0) + st.bitsWrittenToByte < 8) ∧
  (st.targetI = lb / 8 + 1 → st.bitsLeft = 0) ∧
  (∀ p, p < 8 * payload0.length →
    bitAt st.buf p =
      if fb ≤ p ∧ p ≤ lb then
        (if p < fb + ((lb - fb + 1) - st.bitsLeft) then v.testBit (p - fb)
         else if 0 < st.bitsWrittenToByte ∧ p < 8 * (st.targetI + 1) then false
         else bitAt payload0 p)
      else bitAt payload0 p)

/-- Modelled from the spec: the crate-level constant `TIME_MAX` (the crate
root is not under `src/`); the spec fixes the maximum 40-bit timestamp
value as `2^40 - 1`. -/
def TIME_MAX : Nat := 2 ^ 40 - 1

/-- `duration_between` from `src/util.rs`.  The source first asserts that
both inputs are at most `TIME_MAX`; the asserts appear as hypotheses of the
theorems below. -/
def duration_between (earlier later : Nat) : Nat :=
  if later ≥ earlier then
    later - earlier
  else
    TIME_MAX - earlier + later + 1

/-- A 40-bit hardware timestamp (`crate::time::Instant`, not under `src/`). -/
structure Instant where
  value : Nat

/-- A 40-bit hardware duration (`crate::time::Duration`, not under `src/`). -/
structure Duration where
  value : Nat

/-- Modelled from the spec: `Instant::new(v)` fails if `v` exceeds `2^40 - 1`
(the `time` module is not under `src/`). -/
def Instant.new (v : Nat) : Option Instant :=
  if v ≤ TIME_MAX then some ⟨v⟩ else none

/-- Modelled from the spec: `Duration::new(v)` fails if `v` exceeds `2^40 - 1`
(the `time` module is not under `src/`). -/
def Duration.new (v : Nat) : Option Duration :=
  if v ≤ TIME_MAX then some ⟨v⟩ else none

/-- An opaque SPI transport error (`ll::Error` / `spim::Error`): this layer
never inspects it, so a bare numeric code suffices. -/
structure SpiError where
  code : Nat
deriving DecidableEq

/-- An opaque frame-codec decode error (`mac::DecodeError`, external crate). -/
structure DecodeError where
  code : Nat
deriving DecidableEq

/-- The error enum of `src/hl.rs` (`Error<SPI>`); `Ssmarshal` carries no
payload relevant to the modelled paths. -/
inductive Error where
  | Spi (e : SpiError)
  | Fcs
  | Phy
  | BufferTooSmall (required_len : Nat)
  | ReedSolomon
  | FrameWaitTimeout
  | Overrun
  | PreambleDetectionTimeout
  | SfdTimeout
  | Frame (e : DecodeError)
  | DelayedSendTooLate
  | DelayedSendPowerUpWarning
  | Ssmarshal
deriving DecidableEq

/-- The `nb::Result` shape used by the wait methods of `src/hl.rs`:
`WouldBlock`, a terminal `Error`, or success. -/
inductive NbResult (α : Type) where
  | wouldBlock
  | other (e : Error)
  | ok (a : α)

/-- The decoded SYS_STATUS fields inspected by the wait methods of
`src/hl.rs` (a subset of the fields of the 5-byte SYS_STATUS register
declared in `src/ll.rs`); each holds the value returned by the generated
1-bit field accessor. -/
structure SysStatus where
  txfrs   : Nat
  rxdfr   : Nat
  rxfce   : Nat
  rxphe   : Nat
  rxrfsl  : Nat
  rxrfto  : Nat
  rxovrr  : Nat
  rxpto   : Nat
  rxsfdto : Nat
  ldedone : Nat
  ldeerr  : Nat
  rxprej  : Nat

/-- An incoming message (`hl::Message`), parametric in the external frame
codec's frame type. -/
structure Message (F : Type) where
  rx_time : Instant
  frame : F

/-- `wait_reception` from `src/hl.rs`, modelled as a pure function of the
values produced by its register reads: the SYS_STATUS fields `s`, the
RX_TIME `rx_stamp` field value, the RX_FINFO `rxflen` field value, the
RX_BUFFER data bytes, and the external frame decoder `dec`.  Returns the
`nb::Result` together with the final contents of the caller's output
buffer (the source mutates `buffer` in place only at the
`copy_from_slice`).  The SPI transactions themselves are assumed to
succeed; the write-one-to-clear status write issued on the success path
does not influence the returned value and is not recorded here.  The
source unwraps `Instant::new(rx_time)`; the unwrap is modelled with
`Option.getD` (the accessor value always fits, see the C10 theorem). -/
def waitReception (F : Type) (s : SysStatus) (rxStamp rxflen : Nat)
    (rxData : List Nat) (dec : List Nat → Except DecodeError F)
    (buffer : List Nat) : NbResult (Message F) × List Nat :=
  if s.rxdfr = 0 then
    (if s.rxfce = 1 then .other .Fcs
     else if s.rxphe = 1 then .other .Phy
     else if s.rxrfsl = 1 then .other .ReedSolomon
     else if s.rxrfto = 1 then .other .FrameWaitTimeout
     else if s.rxovrr = 1 then .other .Overrun
     else if s.rxpto = 1 then .other .PreambleDetectionTimeout
     else if s.rxsfdto = 1 then .other .SfdTimeout
     else .wouldBlock, buffer)
  else if s.ldedone = 0 then
    (.wouldBlock, buffer)
  else
    let rx_time := (Instant.new rxStamp).getD ⟨0⟩
    let len := rxflen
    if buffer.length < len then
      (.other (.BufferTooSmall len), buffer)
    else
      let buffer2 := rxData.take len ++ buffer.drop len
      match dec (buffer2.take len) with
      | .error e => (.other (.Frame e), buffer2)
      | .ok f => (.ok ⟨rx_time, f⟩, buffer2)

/-- The seven (flag value, error) pairs checked by `wait_reception` when no
frame is ready, in the order the source checks them. -/
def rxErrorChecks (s : SysStatus) : List (Nat × Error) :=
  [(s.rxfce, .Fcs),
   (s.rxphe, .Phy),
   (s.rxrfsl, .ReedSolomon),
   (s.rxrfto, .FrameWaitTimeout),
   (s.rxovrr, .Overrun),
   (s.rxpto, .PreambleDetectionTimeout),
   (s.rxsfdto, .SfdTimeout)]

/-- First error in a priority list whose flag reads 1. -/
def firstSetError : List (Nat × Error) → Option Error
  | [] => none
  | (flag, e) :: rest => if flag = 1 then some e else firstSetError rest

/-- The SYS_STATUS payload written by `wait_transmission` on success: the
generated field setters for `txfrb`, `txprs`, `txphs`, `txfrs` (bits 4-7,
each 1 bit, u8) applied in source order to the zero-initialized 5-byte
write view. -/
def txProgressClearPayload : List Nat :=
  fieldWrite 7 7 1 (fieldWrite 6 6 1 (fieldWrite 5 5 1
    (fieldWrite 4 4 1 [0, 0, 0, 0, 0] 1) 1) 1) 1

/-- `wait_transmission` from `src/hl.rs`, modelled as a pure function of the
values produced by its register reads (the EVC_HPW and EVC_TPW counter
values and the SYS_STATUS fields).  Returns the `nb::Result` together with
the SYS_STATUS payload written on the success path (`none` when no status
write is issued).  The SPI transactions themselves are assumed to
succeed. -/
def waitTransmission (evcHpw evcTpw : Nat) (s : SysStatus) :
    NbResult Unit × Option (List Nat) :=
  if evcHpw ≠ 0 then
    (.other .DelayedSendTooLate, none)
  else if evcTpw ≠ 0 then
    (.other .DelayedSendPowerUpWarning, none)
  else if s.txfrs = 0 then
    (.wouldBlock, none)
  else
    (.ok (), some txProgressClearPayload)

/-- Outcomes of the SPI transactions issued by `send` in `src/hl.rs`, in
source order.  The two unbounded `while` polls on EVC_CTRL are each
abstracted into a single fallible operation (any read error inside the
loop propagates), as is `force_idle` (one write plus its poll). -/
structure SendEnv where
  evcClrWrite : Except SpiError Unit
  evcClrPoll : Except SpiError Unit
  evcEnWrite : Except SpiError Unit
  evcEnPoll : Except SpiError Unit
  forceIdle : Except SpiError Unit
  panadrRead : Except SpiError (Nat × Nat)
  dxTimeWrite : Except SpiError Unit
  txBufferWrite : Except SpiError Unit
  txFctrlModify : Except SpiError Unit
  sysCtrlModify : Except SpiError Unit

/-- `send` from `src/hl.rs`, modelled over the transaction outcomes `env`
and the current 8-bit sequence counter; returns the call's result together
with the new counter value.  Control flow mirrors the source: every step
propagates its error with `?` - except that the source invokes the delayed
send-time write inside `delayed_time.map(|time| self.ll.dx_time().write(..))`
and drops the resulting `Result` on the floor (no `?`); this is mirrored
here by binding that result to an unused variable. -/
def send (env : SendEnv) (seq : Nat) (delayedTime : Option Nat) :
    Except Error Unit × Nat :=
  match env.evcClrWrite with
  | .error e => (.error (.Spi e), seq)
  | .ok _ =>
  match env.evcClrPoll with
  | .error e => (.error (.Spi e), seq)
  | .ok _ =>
  match env.evcEnWrite with
  | .error e => (.error (.Spi e), seq)
  | .ok _ =>
  match env.evcEnPoll with
  | .error e => (.error (.Spi e), seq)
  | .ok _ =>
  match env.forceIdle with
  | .error e => (.error (.Spi e), seq)
  | .ok _ =>
  let seq2 := (seq + 1) % 256
  match env.panadrRead with
  | .error e => (.error (.Spi e), seq2)
  | .ok _ =>
  let _dxResult := delayedTime.map (fun _ => env.dxTimeWrite)
  match env.txBufferWrite with
  | .error e => (.error (.Spi e), seq2)
  | .ok _ =>
  match env.txFctrlModify with
  | .error e => (.error (.Spi e), seq2)
  | .ok _ =>
  match env.sysCtrlModify with
  | .error e => (.error (.Spi e), seq2)
  | .ok _ => (.ok (), seq2)

/-- A `SendEnv` in which every transaction succeeds. -/
def allOkSendEnv : SendEnv where
  evcClrWrite := .ok ()
  evcClrPoll := .ok ()
  evcEnWrite := .ok ()
  evcEnPoll := .ok ()
  forceIdle := .ok ()
  panadrRead := .ok (0, 0)
  dxTimeWrite := .ok ()
  txBufferWrite := .ok ()
  txFctrlModify := .ok ()
  sysCtrlModify := .ok ()

/-- Transport operations issued by the LDOTUNE step of `init`
(`src/hl.rs`, user manual section 2.5.5.11). -/
inductive OtpOp where
  | otpAddrWrite (addr : Nat)
  | otpCtrlModify
  | otpCtrlRead
  | otpRdatRead
  | ldotuneWrite (value : Nat)
deriving DecidableEq

/-- The LDOTUNE step of `init` from `src/hl.rs`, modelled as the trace of
transport operations it issues on its success path, over the OTP memory
contents `otpMem` (address to 32-bit word): write OTP_ADDR = 0x004,
request a read, poll OTP_CTRL until `otpread` clears (abstracted to one
read), read OTP_RDAT; if the word is nonzero repeat at address 0x005 and
write `low | high << 32` to LDOTUNE. -/
def ldotuneConfig (otpMem : Nat → Nat) : List OtpOp :=
  [.otpAddrWrite 0x004, .otpCtrlModify, .otpCtrlRead, .otpRdatRead] ++
  (if otpMem 0x004 ≠ 0 then
    [.otpAddrWrite 0x005, .otpCtrlModify, .otpCtrlRead, .otpRdatRead,
     .ldotuneWrite (otpMem 0x004 ||| ((otpMem 0x005) <<< 32))]
   else [])

/-! Helper lemmas for byte-level arithmetic. -/

theorem lor_or_128 : ∀ a < 128, (128 ||| a) = 128 + a := by decide

theorem lor_or_64 : ∀ a < 64, (64 ||| a) = 64 + a := by decide

theorem and_window (s w k : Nat) :
    (s &&& ((2 ^ w - 1) <<< k)) = (s / 2 ^ k % 2 ^ w) * 2 ^ k := by
  have h2 : (s / 2 ^ k % 2 ^ w) * 2 ^ k = (s / 2 ^ k % 2 ^ w) <<< k := by
    rw [Nat.shiftLeft_eq]
  have hd : s / 2 ^ k = s >>> k := (Nat.shiftRight_eq_div_pow s k).symm
  rw [h2, hd]
  apply Nat.eq_of_testBit_eq
  intro i
  simp only [Nat.testBit_land, Nat.testBit_shiftLeft, Nat.testBit_mod_two_pow,
    Nat.testBit_shiftRight, Nat.testBit_two_pow_sub_one]
  rcases Nat.lt_or_ge i k with hik | hik
  · simp [Nat.not_le.mpr hik]
  · have hk : k + (i - k) = i := by omega
    simp [Nat.le_of_lt, hik, hk]
    cases h : s.testBit i <;> simp [Bool.and_comm]

end Dw1000

namespace Dw1000

/-- C2: for `id ≤ 0x3F` and `subId ≤ 0x7FFF`, `init_header` emits a header of
length 1 when `subId = 0`, 2 when `1 ≤ subId ≤ 127` and 3 when `subId > 127`;
byte 0 carries the write flag at bit 7, the sub-id-present flag at bit 6 and
`id` in bits 0-5; byte 1 (when present) carries the extended flag at bit 7 and
the low 7 bits of `subId`; byte 2 (when present) carries bits 7-14 of `subId`.
The flag bits never corrupt the id or sub-id bits: `id` is recoverable from
bits 0-5 of byte 0 and `subId` from bytes 1 and 2. -/
theorem init_header_spec (id subId : Nat) (write : Bool) (buffer : List Nat)
    (hid : id ≤ 0x3F) (hsub : subId ≤ 0x7FFF) (hlen : buffer.length = 3) :
    (init_header id subId write buffer).2 =
      (if subId = 0 then 1 else if subId ≤ 127 then 2 else 3) ∧
    ((init_header id subId write buffer).1.getD 0 0 =
      (if write then 0x80 else 0) + (if subId > 0 then 0x40 else 0) + id) ∧
    ((init_header id subId write buffer).1.getD 0 0) % 64 = id ∧
    (subId > 0 →
      (init_header id subId write buffer).1.getD 1 0 =
        (if subId > 127 then 0x80 else 0) + subId % 128 ∧
      ((init_header id subId write buffer).1.getD 1 0) % 128 = subId % 128) ∧
    (subId > 127 →
      (init_header id subId write buffer).1.getD 2 0 = subId / 128 ∧
      ((init_header id subId write buffer).1.getD 1 0) % 128 +
        128 * (init_header id subId write buffer).1.getD 2 0 = subId) := by
  have hid64 : id &&& 0x3f = id := by
    have h := Nat.and_pow_two_sub_one_eq_mod id 6
    norm_num at h
    omega
  have hb1low : ((subId % 256) &&& 0x7f) = subId % 128 := by
    have h := Nat.and_pow_two_sub_one_eq_mod (subId % 256) 7
    norm_num at h
    omega
  have hb2 : (((subId &&& 0x7f80) >>> 7) % 256) = subId / 128 := by
    have hw : (0x7f80 : Nat) = (2 ^ 8 - 1) <<< 7 := by
      norm_num [Nat.shiftLeft_eq]
    rw [hw, and_window, Nat.shiftRight_eq_div_pow]
    norm_num
    omega
  match buffer, hlen with
  | [x, y, z], _ =>
    rcases Nat.eq_zero_or_pos subId with hz | hp
    · subst hz
      refine ⟨by simp [init_header], ?_, ?_, by omega, by omega⟩
      · cases write <;>
          simp [init_header, hid64, lor_or_128 id (by omega)]
      · cases write <;>
          simp [init_header, hid64, lor_or_128 id (by omega)] <;>
          omega
    · by_cases h127 : 127 < subId
      · refine ⟨?_, ?_, ?_, fun _ => ⟨?_, ?_⟩, fun _ => ⟨?_, ?_⟩⟩
        · simp only [init_header, if_pos hp, if_pos h127]
          rw [if_neg (by omega : ¬ subId = 0), if_neg (by omega : ¬ subId ≤ 127)]
        · cases write <;>
            simp [init_header, hp, h127, hid64, hb1low, hb2,
              lor_or_64 id (by omega), lor_or_128 (64 + id) (by omega),
              lor_or_128 (subId % 128) (by omega)]
          all_goals omega
        · cases write <;>
            simp [init_header, hp, h127, hid64, hb1low, hb2,
              lor_or_64 id (by omega), lor_or_128 (64 + id) (by omega),
              lor_or_128 (subId % 128) (by omega)]
          all_goals omega
        · simp [init_header, hp, h127, hb1low,
            lor_or_128 (subId % 128) (by omega)]
        · simp [init_header, hp, h127, hb1low,
            lor_or_128 (subId % 128) (by omega)]
        · simp [init_header, hp, h127, hb1low, hb2,
            lor_or_128 (subId % 128) (by omega)]
        · simp [init_header, hp, h127, hb1low, hb2,
            lor_or_128 (subId % 128) (by omega)]
          all_goals omega
      · refine ⟨?_, ?_, ?_, fun _ => ⟨?_, ?_⟩, fun hc => absurd hc h127⟩
        · simp only [init_header, if_pos hp, if_neg h127]
          rw [if_neg (by omega : ¬ subId = 0), if_pos (by omega : subId ≤ 127)]
        · cases write <;>
            simp [init_header, hp, h127, hid64, hb1low,
              lor_or_64 id (by omega), lor_or_128 (64 + id) (by omega)]
          all_goals omega
        · cases write <;>
            simp [init_header, hp, h127, hid64, hb1low,
              lor_or_64 id (by omega), lor_or_128 (64 + id) (by omega)]
          all_goals omega
        · simp [init_header, hp, h127, hb1low]
        · simp [init_header, hp, h127, hb1low]

/-- C2 witness: `init_header` evaluated at a register shaped like `LDE_CFG2`
(id 0x2E, sub-id 0x1806) with the write flag set. -/
theorem init_header_spec_witness :
    (init_header 0x2E 0x1806 true [0, 0, 0]).2 = 3 ∧
    (init_header 0x2E 0x1806 true [0, 0, 0]).1.getD 0 0 % 64 = 0x2E ∧
    (init_header 0x2E 0x1806 true [0, 0, 0]).1.getD 1 0 % 128 +
      128 * (init_header 0x2E 0x1806 true [0, 0, 0]).1.getD 2 0 = 0x1806 := by
  have h := init_header_spec 0x2E 0x1806 true [0, 0, 0]
    (by norm_num) (by norm_num) (by norm_num)
  refine ⟨?_, h.2.2.1, (h.2.2.2.2 (by norm_num)).2⟩
  rw [h.1]
  norm_num

/-- C3: `duration_between` returns `later - earlier` when `later ≥ earlier`
and `(2^40 - 1) - earlier + later + 1` otherwise, for inputs within the
40-bit range; in particular `duration_between 100 50` is
`(2^40 - 1) - 100 + 50 + 1`, `duration_between 50 100 = 50`, and
`duration_between x x = 0` for every valid `x`. -/
theorem duration_between_spec :
    (∀ earlier later, earlier ≤ TIME_MAX → later ≤ TIME_MAX →
      (earlier ≤ later → duration_between earlier later = later - earlier) ∧
      (later < earlier →
        duration_between earlier later = (2 ^ 40 - 1) - earlier + later + 1)) ∧
    duration_between 100 50 = (2 ^ 40 - 1) - 100 + 50 + 1 ∧
    duration_between 50 100 = 50 ∧
    (∀ x, x ≤ TIME_MAX → duration_between x x = 0) := by
  refine ⟨fun earlier later _ _ => ⟨fun h => ?_, fun h => ?_⟩, ?_, ?_, fun x _ => ?_⟩
  · simp [duration_between, h]
  · simp only [duration_between, TIME_MAX, if_neg (by omega : ¬ later ≥ earlier)]
  · simp [duration_between, TIME_MAX]
  · simp [duration_between]
  · simp [duration_between]

/-- C3 witness: the general clauses of `duration_between_spec` applied at
concrete inputs. -/
theorem duration_between_spec_witness :
    duration_between 3 10 = 7 ∧ duration_between 10 3 = 2 ^ 40 - 7 := by
  constructor
  · have h := (duration_between_spec.1 3 10 (by norm_num [TIME_MAX])
      (by norm_num [TIME_MAX])).1 (by norm_num)
    simpa using h
  · have h := (duration_between_spec.1 10 3 (by norm_num [TIME_MAX])
      (by norm_num [TIME_MAX])).2 (by norm_num)
    rw [h]
    norm_num

/-! Helper lemmas for splitting `low ||| (high <<< k)` back into halves. -/

theorem lor_shiftLeft_mod (a b k : Nat) (h : a < 2 ^ k) :
    (a ||| (b <<< k)) % 2 ^ k = a := by
  apply Nat.eq_of_testBit_eq
  intro i
  rcases Nat.lt_or_ge i k with hik | hik
  · simp [Nat.testBit_mod_two_pow, Nat.testBit_lor, Nat.testBit_shiftLeft,
      hik, Nat.not_le.mpr hik]
  · have ha : a.testBit i = false :=
      Nat.testBit_eq_false_of_lt
        (lt_of_lt_of_le h (Nat.pow_le_pow_right (by norm_num) hik))
    simp [Nat.testBit_mod_two_pow, Nat.not_lt.mpr hik, ha]

theorem lor_shiftLeft_div (a b k : Nat) (h : a < 2 ^ k) :
    (a ||| (b <<< k)) / 2 ^ k = b := by
  rw [← Nat.shiftRight_eq_div_pow]
  apply Nat.eq_of_testBit_eq
  intro i
  have ha : a.testBit (k + i) = false :=
    Nat.testBit_eq_false_of_lt
      (lt_of_lt_of_le h (Nat.pow_le_pow_right (by norm_num) (by omega)))
  simp [Nat.testBit_shiftRight, Nat.testBit_lor, Nat.testBit_shiftLeft, ha,
    Nat.add_sub_cancel_left]

/-- C4: when the frame-ready flag (`rxdfr`) is clear, `wait_reception`
returns the first set flag among exactly the seven error flags, in the
source's fixed priority order (FCS error, PHY header error, Reed-Solomon
sync loss, frame-wait timeout, overrun, preamble-detection timeout, SFD
timeout), as the corresponding terminal error, and not-ready when none is
set; the `ldeerr` and `rxprej` flags never influence the outcome; and with
the FCS-error flag set the result is the FCS error, never not-ready. -/
theorem wait_reception_error_priority (F : Type) (s : SysStatus)
    (rxStamp rxflen : Nat) (rxData : List Nat)
    (dec : List Nat → Except DecodeError F) (buffer : List Nat)
    (h : s.rxdfr = 0) :
    ((waitReception F s rxStamp rxflen rxData dec buffer).1 =
      match firstSetError (rxErrorChecks s) with
      | some e => NbResult.other e
      | none => NbResult.wouldBlock) ∧
    (∀ a b : Nat,
      waitReception F { s with ldeerr := a, rxprej := b }
        rxStamp rxflen rxData dec buffer =
      waitReception F s rxStamp rxflen rxData dec buffer) ∧
    (s.rxfce = 1 →
      (waitReception F s rxStamp rxflen rxData dec buffer).1 =
        NbResult.other Error.Fcs) := by
  refine ⟨?_, fun a b => rfl, fun hf => ?_⟩
  · simp only [waitReception, rxErrorChecks, firstSetError, h, if_pos rfl]
    split_ifs <;> rfl
  · simp [waitReception, h, hf]

/-- C4 witness: a status reading with only the FCS-error flag set. -/
theorem wait_reception_error_priority_witness :
    (waitReception (List Nat)
      ⟨0, 0, 1, 0, 0, 0, 0, 0, 0, 0, 0, 0⟩ 0 0 []
      (fun bs => Except.ok bs) []).1 = NbResult.other Error.Fcs :=
  (wait_reception_error_priority (List Nat)
    ⟨0, 0, 1, 0, 0, 0, 0, 0, 0, 0, 0, 0⟩ 0 0 []
    (fun bs => Except.ok bs) [] rfl).2.2 rfl

/-- C5: when the frame is ready (and the LDE timestamp valid) but the
caller's buffer is shorter than the received frame length, `wait_reception`
returns the `BufferTooSmall` terminal error carrying the required length
and leaves the output buffer completely unmodified (no bytes copied). -/
theorem wait_reception_buffer_too_small (F : Type) (s : SysStatus)
    (rxStamp rxflen : Nat) (rxData : List Nat)
    (dec : List Nat → Except DecodeError F) (buffer : List Nat)
    (h1 : s.rxdfr ≠ 0) (h2 : s.ldedone ≠ 0) (h3 : buffer.length < rxflen) :
    waitReception F s rxStamp rxflen rxData dec buffer =
      (NbResult.other (Error.BufferTooSmall rxflen), buffer) := by
  simp [waitReception, h1, h2, h3]

/-- C5 witness: a 10-byte output buffer against a received length of 20
yields `BufferTooSmall` with required length 20 and an untouched buffer. -/
theorem wait_reception_buffer_too_small_witness :
    waitReception (List Nat) ⟨0, 1, 0, 0, 0, 0, 0, 0, 0, 1, 0, 0⟩ 0 20
      (List.replicate 127 0x55) (fun bs => Except.ok bs)
      (List.replicate 10 0xAA) =
    (NbResult.other (Error.BufferTooSmall 20), List.replicate 10 0xAA) :=
  wait_reception_buffer_too_small (List Nat)
    ⟨0, 1, 0, 0, 0, 0, 0, 0, 0, 1, 0, 0⟩ 0 20
    (List.replicate 127 0x55) (fun bs => Except.ok bs)
    (List.replicate 10 0xAA) (by decide) (by decide) (by simp)

/-- C8: `wait_transmission` returns the delayed-send-too-late error when
the half-period warning counter is nonzero; else the power-up-warning error
when the transmitter-power-up warning counter is nonzero; else not-ready
when the frame-sent flag is clear; otherwise it returns success after
writing a SYS_STATUS payload that sets exactly the four progress flags
(`txfrb`, `txprs`, `txphs`, `txfrs`, bits 4-7 of the first status byte) for
write-one-to-clear. -/
theorem wait_transmission_spec (evcHpw evcTpw : Nat) (s : SysStatus) :
    (evcHpw ≠ 0 →
      waitTransmission evcHpw evcTpw s =
        (NbResult.other Error.DelayedSendTooLate, none)) ∧
    (evcHpw = 0 → evcTpw ≠ 0 →
      waitTransmission evcHpw evcTpw s =
        (NbResult.other Error.DelayedSendPowerUpWarning, none)) ∧
    (evcHpw = 0 → evcTpw = 0 → s.txfrs = 0 →
      waitTransmission evcHpw evcTpw s = (NbResult.wouldBlock, none)) ∧
    (evcHpw = 0 → evcTpw = 0 → s.txfrs ≠ 0 →
      waitTransmission evcHpw evcTpw s =
        (NbResult.ok (), some txProgressClearPayload)) ∧
    txProgressClearPayload = [0xF0, 0, 0, 0, 0] := by
  refine ⟨fun h1 => ?_, fun h1 h2 => ?_, fun h1 h2 h3 => ?_,
    fun h1 h2 h3 => ?_, by rfl⟩
  · simp [waitTransmission, h1]
  · simp [waitTransmission, h1, h2]
  · simp [waitTransmission, h1, h2, h3]
  · simp [waitTransmission, h1, h2, h3]

/-- C8 witness: with both warning counters zero and the frame-sent flag
set, `wait_transmission` succeeds and writes exactly bits 4-7. -/
theorem wait_transmission_spec_witness :
    waitTransmission 0 0 ⟨1, 0, 0, 0, 0, 0, 0, 0, 0, 0, 0, 0⟩ =
      (NbResult.ok (), some [0xF0, 0, 0, 0, 0]) ∧
    waitTransmission 3 0 ⟨1, 0, 0, 0, 0, 0, 0, 0, 0, 0, 0, 0⟩ =
      (NbResult.other Error.DelayedSendTooLate, none) := by
  have h := wait_transmission_spec 0 0 ⟨1, 0, 0, 0, 0, 0, 0, 0, 0, 0, 0, 0⟩
  have h2 := wait_transmission_spec 3 0 ⟨1, 0, 0, 0, 0, 0, 0, 0, 0, 0, 0, 0⟩
  exact ⟨by rw [h.2.2.2.1 rfl rfl (by decide), h.2.2.2.2],
    h2.1 (by decide)⟩

/-- C6: the source of `send` drops the `Result` of the delayed-send time
register write (`delayed_time.map(|time| self.ll.dx_time().write(..))`
without `?`), so a transport error on that write does not propagate: with
every other transaction succeeding and a scheduled instant supplied, `send`
returns success even though the DX_TIME write failed.  This contradicts the
specified behaviour that every transport error is surfaced immediately. -/
theorem send_dx_time_error_dropped :
    (send { allOkSendEnv with dxTimeWrite := .error ⟨7⟩ } 0 (some 1234)).1 =
      .ok () := rfl

/-- C7 counterexample: a `send` call whose very first transaction (the
event-counter clear write) fails returns a transport error with the
sequence counter unchanged - the counter is not incremented on every
`send` call. -/
theorem send_seq_unchanged_on_early_error :
    send { allOkSendEnv with evcClrWrite := .error ⟨3⟩ } 7 none =
      (.error (.Spi ⟨3⟩), 7) := rfl

/-- C7 (amended): whenever the transactions preceding the sequence-number
draw (event-counter clear write and poll, event-counter enable write and
poll, force-idle) succeed, `send` increments the 8-bit wrapping sequence
counter by exactly one, regardless of whether the remaining steps succeed
or fail. -/
theorem send_seq_increment (env : SendEnv) (seq : Nat) (d : Option Nat)
    (h1 : env.evcClrWrite = .ok ()) (h2 : env.evcClrPoll = .ok ())
    (h3 : env.evcEnWrite = .ok ()) (h4 : env.evcEnPoll = .ok ())
    (h5 : env.forceIdle = .ok ()) :
    (send env seq d).2 = (seq + 1) % 256 := by
  unfold send
  rw [h1, h2, h3, h4, h5]
  rcases env.panadrRead with e | v <;>
    rcases env.txBufferWrite with e2 | v2 <;>
    rcases env.txFctrlModify with e3 | v3 <;>
    rcases env.sysCtrlModify with e4 | v4 <;> rfl

/-- C7 witness: a later step fails (TX_FCTRL modify), yet the counter wraps
from 255 to 0. -/
theorem send_seq_increment_witness :
    (send { allOkSendEnv with txFctrlModify := .error ⟨9⟩ } 255 none).2 = 0 := by
  have h := send_seq_increment
    { allOkSendEnv with txFctrlModify := .error ⟨9⟩ } 255 none
    rfl rfl rfl rfl rfl
  simpa using h

/-- C9: during `init`, if the OTP word at the first calibration address
(0x004) is zero, the LDOTUNE step issues no further transport operations
(no read at 0x005, no LDOTUNE write); if it is nonzero, a second word is
read at 0x005 and the value written to LDOTUNE is `low | high << 32`, i.e.
the first word as the low 32-bit half and the second as the high half. -/
theorem ldotune_config_spec (otpMem : Nat → Nat) :
    (otpMem 0x004 = 0 →
      ldotuneConfig otpMem =
        [.otpAddrWrite 0x004, .otpCtrlModify, .otpCtrlRead, .otpRdatRead] ∧
      (∀ v, OtpOp.ldotuneWrite v ∉ ldotuneConfig otpMem) ∧
      OtpOp.otpAddrWrite 0x005 ∉ ldotuneConfig otpMem) ∧
    (otpMem 0x004 ≠ 0 →
      ldotuneConfig otpMem =
        [.otpAddrWrite 0x004, .otpCtrlModify, .otpCtrlRead, .otpRdatRead,
         .otpAddrWrite 0x005, .otpCtrlModify, .otpCtrlRead, .otpRdatRead,
         .ldotuneWrite (otpMem 0x004 ||| (otpMem 0x005 <<< 32))] ∧
      (otpMem 0x004 < 2 ^ 32 →
        (otpMem 0x004 ||| (otpMem 0x005 <<< 32)) % 2 ^ 32 = otpMem 0x004 ∧
        (otpMem 0x004 ||| (otpMem 0x005 <<< 32)) / 2 ^ 32 = otpMem 0x005)) := by
  constructor
  · intro h0
    refine ⟨by simp [ldotuneConfig, h0], fun v => ?_, ?_⟩
    · simp [ldotuneConfig, h0]
    · simp [ldotuneConfig, h0]
  · intro h0
    refine ⟨by simp [ldotuneConfig, h0], fun hlow => ?_⟩
    exact ⟨lor_shiftLeft_mod _ _ _ hlow, lor_shiftLeft_div _ _ _ hlow⟩

/-! Bit-level helper lemmas for the field codec. -/

theorem lt_two_pow_of_high_bits {x n : Nat}
    (h : ∀ i, n ≤ i → x.testBit i = false) : x < 2 ^ n := by
  have hx : x = x % 2 ^ n := by
    apply Nat.eq_of_testBit_eq
    intro i
    rcases Nat.lt_or_ge i n with hin | hin
    · simp [Nat.testBit_mod_two_pow, hin]
    · simp [Nat.testBit_mod_two_pow, Nat.not_lt.mpr hin, h i hin]
  rw [hx]
  exact Nat.mod_lt _ (Nat.pos_pow_of_pos n (by norm_num))

theorem testBit_false_of_lt_256 {x : Nat} (hx : x < 256) {i : Nat}
    (hi : 8 ≤ i) : x.testBit i = false := by
  apply Nat.testBit_eq_false_of_lt
  calc x < 256 := hx
    _ = 2 ^ 8 := rfl
    _ ≤ 2 ^ i := Nat.pow_le_pow_right (by norm_num) hi

theorem lor_lt_256 {a b : Nat} (ha : a < 256) (hb : b < 256) :
    a ||| b < 256 := by
  have h : ∀ i, 8 ≤ i → (a ||| b).testBit i = false := by
    intro i hi
    simp [Nat.testBit_lor, testBit_false_of_lt_256 ha hi,
      testBit_false_of_lt_256 hb hi]
  have := lt_two_pow_of_high_bits h
  norm_num at this
  exact this

theorem toBytes_getD : ∀ (size v m : Nat),
    (toBytes size v).getD m 0 = if m < size then v / 2 ^ (8 * m) % 256 else 0
  | 0, v, m => by simp [toBytes]
  | size + 1, v, 0 => by simp [toBytes]
  | size + 1, v, m + 1 => by
    simp only [toBytes, List.getD_cons_succ]
    rw [toBytes_getD size (v / 256) m]
    have hd : v / 256 / 2 ^ (8 * m) = v / 2 ^ (8 * (m + 1)) := by
      rw [Nat.div_div_eq_div_mul]
      congr 1
      rw [show (256 : Nat) = 2 ^ 8 from rfl, ← pow_add]
      congr 1
      omega
    rw [hd]
    congr 1
    simp [Nat.succ_lt_succ_iff]

theorem byte_add_shift_testBit {b x : Nat} (hb : b < 256) (i : Nat) :
    (b + 256 * x).testBit i =
      if i < 8 then b.testBit i else x.testBit (i - 8) := by
  have hmod := lor_shiftLeft_mod b x 8 hb
  have hdiv := lor_shiftLeft_div b x 8 hb
  have hdm := Nat.div_add_mod (b ||| (x <<< 8)) 256
  norm_num at hmod hdiv
  have he : b + 256 * x = b ||| (x <<< 8) := by omega
  rw [he]
  rcases Nat.lt_or_ge i 8 with h8 | h8
  · have hy : (x <<< 8).testBit i = false := by
      rw [Nat.testBit_shiftLeft]
      simp [show ¬ i ≥ 8 from by omega]
    simp [Nat.testBit_lor, hy, h8]
  · have hbf : b.testBit i = false := testBit_false_of_lt_256 hb h8
    have hy : (x <<< 8).testBit i = x.testBit (i - 8) := by
      rw [Nat.testBit_shiftLeft]
      simp [show i ≥ 8 from h8]
    simp [Nat.testBit_lor, hbf, hy, Nat.not_lt.mpr h8]

theorem fromBytes_testBit : ∀ (size : Nat) (l : List Nat),
    (∀ j, l.getD j 0 < 256) → ∀ i,
    (fromBytes size l).testBit i =
      (decide (i / 8 < size) && (l.getD (i / 8) 0).testBit (i % 8))
  | 0, l, _, i => by simp [fromBytes, Nat.zero_testBit]
  | size + 1, [], h, i => by
    simp [fromBytes, Nat.zero_testBit, List.getD]
  | size + 1, b :: rest, h, i => by
    have hb : b < 256 := by have := h 0; simpa using this
    rw [show fromBytes (size + 1) (b :: rest) = b + 256 * fromBytes size rest
      from rfl]
    rw [byte_add_shift_testBit hb]
    rcases Nat.lt_or_ge i 8 with h8 | h8
    · have hq : i / 8 = 0 := by omega
      have hm : i % 8 = i := by omega
      simp [h8, hq, hm]
    · have hrest : ∀ j, rest.getD j 0 < 256 := fun j => by
        have := h (j + 1); simpa using this
      rw [if_neg (by omega)]
      rw [fromBytes_testBit size rest hrest (i - 8)]
      have e2 : (i - 8) / 8 = i / 8 - 1 := by omega
      have e3 : (i - 8) % 8 = i % 8 := by omega
      obtain ⟨k, hk⟩ : ∃ k, i / 8 = k + 1 := ⟨i / 8 - 1, by omega⟩
      simp only [e2, e3, hk, List.getD_cons_succ, Nat.add_sub_cancel]
      congr 1
      exact decide_eq_decide.mpr (by omega)

theorem getD_slice (l : List Nat) (s n j : Nat) :
    ((l.drop s).take n).getD j 0 = if j < n then l.getD (s + j) 0 else 0 := by
  split
  · rw [List.getD_eq_getElem?_getD, List.getElem?_take, if_pos ‹_›,
      List.getElem?_drop, ← List.getD_eq_getElem?_getD]
  · rw [List.getD_eq_getElem?_getD, List.getElem?_take, if_neg ‹_›]
    rfl

theorem shiftCarry_getD (off : Nat) : ∀ (l : List Nat) (prev j : Nat),
    (shiftCarry off prev l).getD j 0 =
      (if j = 0 then prev else (l.getD (j - 1) 0) >>> off) |||
      (((l.getD j 0) <<< (8 - off)) % 256)
  | [], prev, 0 => by simp [shiftCarry, List.getD]
  | [], prev, j + 1 => by simp [shiftCarry, List.getD]
  | b :: rest, prev, 0 => by simp [shiftCarry]
  | b :: rest, prev, j + 1 => by
    simp only [shiftCarry, List.getD_cons_succ]
    rw [shiftCarry_getD off rest (b >>> off) j]
    congr 1
    cases j with
    | zero => simp
    | succ k => simp

theorem shiftCarry_length (off : Nat) : ∀ (l : List Nat) (prev : Nat),
    (shiftCarry off prev l).length = l.length + 1
  | [], _ => rfl
  | b :: rest, prev => by
    simp [shiftCarry, shiftCarry_length off rest (b >>> off)]

theorem decodeShift_length (off : Nat) (bytes : List Nat) :
    (decodeShift off bytes).length = bytes.length := by
  cases bytes with
  | nil => rfl
  | cons b rest =>
    simp only [decodeShift]
    split
    · simp [shiftCarry_length]
    · rfl

theorem decodeShift_getD (off : Nat) (bytes : List Nat) (j : Nat) :
    (decodeShift off bytes).getD j 0 =
      ((bytes.getD j 0) >>> off) |||
      (((bytes.getD (j + 1) 0) <<< (8 - off)) % 256) := by
  cases bytes with
  | nil =>
    simp [decodeShift, List.getD]
  | cons b rest =>
    by_cases hoff : 0 < off
    · simp only [decodeShift, if_pos hoff]
      rw [shiftCarry_getD off rest (b >>> off) j]
      congr 1
      cases j with
      | zero => simp
      | succ k => simp
    · have h0 : off = 0 := by omega
      subst h0
      simp only [decodeShift, if_neg hoff]
      have hz : ∀ y : Nat, (y <<< 8) % 256 = 0 := fun y => by
        rw [Nat.shiftLeft_eq]
        norm_num [Nat.mul_mod_left]
      rw [hz, Nat.shiftRight_zero, Nat.or_zero]

theorem shifted_byte_testBit {x y off k : Nat} (hx : x < 256) (hoff : off < 8)
    (hk : k < 8) :
    ((x >>> off) ||| ((y <<< (8 - off)) % 256)).testBit k =
      if k + off < 8 then x.testBit (k + off) else y.testBit (k + off - 8) := by
  rw [Nat.testBit_lor, Nat.testBit_shiftRight]
  have h2 : ((y <<< (8 - off)) % 256).testBit k =
      (decide (k < 8) && ((y <<< (8 - off)).testBit k)) := by
    rw [show (256 : Nat) = 2 ^ 8 from rfl, Nat.testBit_mod_two_pow]
  rcases Nat.lt_or_ge (k + off) 8 with h8 | h8
  · have hy : (y <<< (8 - off)).testBit k = false := by
      rw [Nat.testBit_shiftLeft]
      simp [show ¬ k ≥ 8 - off from by omega]
    rw [h2]
    simp [hy, if_pos h8, show off + k = k + off from by omega]
  · have hxf : x.testBit (off + k) = false :=
      testBit_false_of_lt_256 hx (by omega)
    have hy : (y <<< (8 - off)).testBit k = y.testBit (k + off - 8) := by
      rw [Nat.testBit_shiftLeft]
      simp [show k ≥ 8 - off from by omega,
        show k - (8 - off) = k + off - 8 from by omega]
    rw [h2]
    simp [hxf, hy, if_neg (by omega : ¬ k + off < 8), hk]

theorem shl_mod_shr (m s : Nat) (hs : s ≤ 8) :
    ((m <<< s) % 256) >>> s = m % 2 ^ (8 - s) := by
  rw [Nat.shiftLeft_eq, Nat.shiftRight_eq_div_pow]
  have h256 : (256 : Nat) = 2 ^ (8 - s) * 2 ^ s := by
    rw [← pow_add, show 8 - s + s = 8 from by omega]
    norm_num
  rw [h256, Nat.mul_mod_mul_right,
    Nat.mul_div_cancel _ (Nat.pos_pow_of_pos s (by norm_num))]

theorem maskLast_getD (width size : Nat) (bytes : List Nat) (j : Nat)
    (hsz : size - 1 < bytes.length) :
    (maskLast width size bytes).getD j 0 =
      if width % 8 ≠ 0 ∧ j = size - 1 then
        (((bytes.getD (size - 1) 0) <<< (8 - width % 8)) % 256) >>> (8 - width % 8)
      else bytes.getD j 0 := by
  unfold maskLast
  by_cases hw : width % 8 = 0
  · rw [if_neg (by omega), if_neg (by simp [hw])]
  · rw [if_pos (by omega)]
    by_cases hj : j = size - 1
    · subst hj
      rw [if_pos ⟨hw, rfl⟩, List.getD_eq_getElem?_getD, List.getElem?_set,
        if_pos rfl, if_pos hsz]
      rfl
    · rw [if_neg (by tauto), List.getD_eq_getElem?_getD, List.getElem?_set,
        if_neg (by omega), ← List.getD_eq_getElem?_getD]

/-! Helper lemmas for the generated field setter. -/

theorem shl255_mod : ∀ a < 8, (255 <<< a) % 256 = 256 - 2 ^ a := by decide

theorem window_mod : ∀ m < 9, ∀ off < 9, off ≤ m →
    (256 - 2 ^ off) % 2 ^ m = 2 ^ m - 2 ^ off := by decide

theorem window_shl : ∀ h0 < 9, ∀ off < 9, ∀ bw < 9, off ≤ h0 → h0 + bw ≤ 8 →
    ((2 ^ h0 - 2 ^ off) <<< bw) % 256 = 2 ^ (h0 + bw) - 2 ^ (off + bw) := by
  decide

theorem countOnes8_window : ∀ hi < 9, ∀ lo < 9, lo ≤ hi →
    countOnes8 (2 ^ hi - 2 ^ lo) = hi - lo := by decide

theorem mask_testBit : ∀ hi < 9, ∀ lo < 9, ∀ k < 8, lo ≤ hi →
    (2 ^ hi - 2 ^ lo).testBit k = decide (lo ≤ k ∧ k < hi) := by decide

theorem xor255_testBit (mask k : Nat) (hk : k < 8) :
    (255 ^^^ mask).testBit k = ! mask.testBit k := by
  rw [Nat.testBit_xor]
  have h255 : (255 : Nat).testBit k = true := by
    rw [show (255 : Nat) = 2 ^ 8 - 1 from rfl, Nat.testBit_two_pow_sub_one]
    simpa using hk
  rw [h255]
  cases mask.testBit k <;> rfl

theorem writeByte_testBit (old value mask k : Nat) (hk : k < 8) :
    ((old &&& (255 ^^^ mask)) ||| (value &&& mask)).testBit k =
      if mask.testBit k then value.testBit k else old.testBit k := by
  rw [Nat.testBit_lor, Nat.testBit_land, Nat.testBit_land,
    xor255_testBit mask k hk]
  cases mask.testBit k <;> simp

theorem value_testBit (x blib off bw k : Nat) (hx : x < 256)
    (hblib8 : blib ≤ 8) (hk : k < 8) :
    (((((x >>> (8 - blib)) <<< off) % 256) <<< bw) % 256).testBit k =
      (decide (off + bw ≤ k ∧ k - (off + bw) < blib) &&
        x.testBit (8 - blib + (k - (off + bw)))) := by
  rw [show (256 : Nat) = 2 ^ 8 from rfl, Nat.testBit_mod_two_pow,
    Nat.testBit_shiftLeft, Nat.testBit_mod_two_pow, Nat.testBit_shiftLeft,
    Nat.testBit_shiftRight]
  by_cases hc : off + bw ≤ k ∧ k - (off + bw) < blib
  · have e1 : 8 - blib + (k - bw - off) = 8 - blib + (k - (off + bw)) := by
      omega
    simp [hk, show k ≥ bw from by omega, show k - bw < 8 from by omega,
      show k - bw ≥ off from by omega, e1]
    exact fun _ => hc
  · rcases Nat.lt_or_ge k (off + bw) with hlt | hge
    · rcases Nat.lt_or_ge k bw with hb | hb
      · simp [show ¬ k ≥ bw from by omega, hc]
      · simp [show k ≥ bw from hb, show ¬ k - bw ≥ off from by omega, hc]
    · have hbig : 8 ≤ 8 - blib + (k - bw - off) := by omega
      have hf : x.testBit (8 - blib + (k - bw - off)) = false :=
        testBit_false_of_lt_256 hx hbig
      simp [hk, show k ≥ bw from by omega, show k - bw < 8 from by omega,
        show k - bw ≥ off from by omega, hf, hc]

/-- Shape of the setter-loop mask: under the loop invariant's side
conditions it is the bit window `[loOf, hiOf)` of the current target
byte. -/
theorem maskOf_eq (fb lb : Nat) (st : WState)
    (hS0 : st.targetI = fb / 8 → st.bitsWrittenToByte = 0)
    (hlast : st.targetI = lb / 8 →
      offOf fb st + st.bitsWrittenToByte + st.bitsLeft ≤ 8)
    (hbw : offOf fb st + st.bitsWrittenToByte < 8)
    (hbl1 : 1 ≤ st.bitsLeft) :
    maskOf fb lb st = 2 ^ hiOf fb lb st - 2 ^ loOf fb st ∧
    loOf fb st < hiOf fb lb st ∧ hiOf fb lb st ≤ 8 := by
  have hoff8 : offOf fb st < 8 := by
    unfold offOf
    split
    · exact Nat.mod_lt _ (by norm_num)
    · norm_num
  have hm1 : (if st.targetI = fb / 8 then (0xff <<< (fb % 8)) % 256 else 0xff)
      = 256 - 2 ^ offOf fb st := by
    unfold offOf
    split
    · exact shl255_mod _ (Nat.mod_lt _ (by norm_num))
    · norm_num
  by_cases hL : st.targetI = lb / 8
  · have hle := hlast hL
    refine ⟨?_, ?_, ?_⟩
    · simp only [maskOf, if_pos hL, hm1]
      rw [shl_mod_shr _ _ (by omega),
        show 8 - (8 - st.bitsLeft - offOf fb st) =
          st.bitsLeft + offOf fb st from by omega,
        window_mod (st.bitsLeft + offOf fb st) (by omega) (offOf fb st)
          (by omega) (by omega),
        window_shl (st.bitsLeft + offOf fb st) (by omega) (offOf fb st)
          (by omega) st.bitsWrittenToByte (by omega) (by omega) (by omega)]
      unfold hiOf loOf
      rw [if_pos hL,
        show st.bitsLeft + offOf fb st + st.bitsWrittenToByte =
          offOf fb st + st.bitsWrittenToByte + st.bitsLeft from by omega]
    · unfold hiOf loOf
      rw [if_pos hL]
      omega
    · unfold hiOf
      rw [if_pos hL]
      omega
  · refine ⟨?_, ?_, ?_⟩
    · simp only [maskOf, if_neg hL, hm1]
      by_cases hS : st.targetI = fb / 8
      · have hbw0 := hS0 hS
        rw [hbw0, Nat.shiftLeft_zero,
          Nat.mod_eq_of_lt (by have : 1 ≤ 2 ^ offOf fb st := Nat.one_le_two_pow; omega)]
        unfold hiOf loOf
        rw [if_neg hL, hbw0]
        norm_num
      · have hoff0 : offOf fb st = 0 := by
          unfold offOf
          rw [if_neg hS]
        rw [hoff0, pow_zero,
          show (256 : Nat) - 1 = 255 from rfl,
          shl255_mod _ (by omega)]
        unfold hiOf loOf
        rw [if_neg hL, hoff0]
        norm_num
    · unfold hiOf loOf
      rw [if_neg hL]
      omega
    · unfold hiOf
      rw [if_neg hL]

/-- Abstract form of the setter-loop invariant preservation: given the
facts established about one iteration's mask window `[LO, HI)`, consumed
bit count `U` and written byte `NB`, the updated state satisfies the
invariant again. -/
theorem step_invariant_conclusion
    (fb lb v : Nat) (payload0 buf : List Nat)
    (bitsLeft blib bw si ti LO HI U NB : Nat)
    (hfl : fb ≤ lb) (hlen : lb < 8 * payload0.length)
    (hblen : buf.length = payload0.length)
    (hblt : ∀ j, buf.getD j 0 < 256)
    (hbl : bitsLeft ≤ lb - fb + 1)
    (hblib1 : 1 ≤ blib) (hblib8 : blib ≤ 8)
    (hsrc : 8 * si + (8 - blib) = (lb - fb + 1) - bitsLeft)
    (hSTART : ti = fb / 8 → bw = 0 ∧ blib = 8 ∧ si = 0 ∧
      bitsLeft = lb - fb + 1)
    (hOFF0 : ¬ ti = fb / 8 → LO = bw)
    (hts : fb / 8 ≤ ti) (hlt : ti < lb / 8 + 1)
    (hbl1 : 1 ≤ bitsLeft)
    (hposLO : 8 * ti + LO = fb + ((lb - fb + 1) - bitsLeft))
    (hLO8 : LO < 8)
    (hlohi : LO < HI) (hhi8 : HI ≤ 8)
    (hHIlast : ti = lb / 8 → HI = LO + bitsLeft)
    (hHInl : ¬ ti = lb / 8 → HI = 8 ∧ 8 * (ti + 1) ≤ lb)
    (hU1 : 1 ≤ U) (hU2 : U ≤ HI - LO) (hU3 : U ≤ blib)
    (hUfull_start : ti = fb / 8 → U = HI - LO)
    (hUpart : U < HI - LO → ¬ ti = fb / 8 ∧ U = blib)
    (hUlebl : U ≤ bitsLeft)
    (hNB256 : NB < 256)
    (hnb : ∀ k, k < 8 → NB.testBit k =
      if LO ≤ k ∧ k < HI then
        (if k - LO < blib then
          v.testBit ((lb - fb + 1) - bitsLeft + (k - LO))
         else false)
      else (buf.getD ti 0).testBit k)
    (hbit : ∀ p, p < 8 * payload0.length →
      bitAt buf p =
        if fb ≤ p ∧ p ≤ lb then
          (if p < fb + ((lb - fb + 1) - bitsLeft) then v.testBit (p - fb)
           else if 0 < bw ∧ p < 8 * (ti + 1) then false
           else bitAt payload0 p)
        else bitAt payload0 p) :
    WInv fb lb v payload0
      ⟨buf.set ti NB, bitsLeft - U,
       (if blib > U then blib - U else 8 - (U - blib)),
       (if U = HI - LO then 0 else bw + U),
       (if blib > U then si else si + 1),
       (if U = HI - LO then ti + 1 else ti)⟩ := by
  have hti_len : ti < buf.length := by omega
  have hHL : HI - LO ≤ bitsLeft := by
    by_cases hL : ti = lb / 8
    · have := hHIlast hL
      omega
    · obtain ⟨h8, hle⟩ := hHInl hL
      omega
  have hb2 : ∀ p, bitAt (buf.set ti NB) p =
      if ti = p / 8 then NB.testBit (p % 8) else bitAt buf p := by
    intro p
    unfold bitAt
    rw [List.getD_eq_getElem?_getD, List.getElem?_set]
    by_cases hpt : ti = p / 8
    · rw [if_pos hpt, if_pos hti_len, if_pos hpt]
      rfl
    · rw [if_neg hpt, ← List.getD_eq_getElem?_getD, if_neg hpt]
  unfold WInv
  dsimp only
  refine ⟨?_, ?_, ?_, ?_, ?_, ?_, ?_, ?_, ?_, ?_, ?_, ?_⟩
  · rw [List.length_set]
    exact hblen
  · intro j
    rw [List.getD_eq_getElem?_getD, List.getElem?_set]
    by_cases hj : ti = j
    · rw [if_pos hj, if_pos hti_len]
      exact hNB256
    · rw [if_neg hj, ← List.getD_eq_getElem?_getD]
      exact hblt j
  · omega
  · by_cases hbb : blib > U
    · rw [if_pos hbb]
      omega
    · rw [if_neg hbb]
      omega
  · by_cases hbb : blib > U
    · rw [if_pos hbb]
      omega
    · rw [if_neg hbb]
      omega
  · by_cases hbb : blib > U
    · rw [if_pos hbb, if_pos hbb]
      omega
    · rw [if_neg hbb, if_neg hbb]
      omega
  · by_cases hfp : U = HI - LO
    · simp only [if_pos hfp]
      intro h
      exact absurd h (by omega)
    · simp only [if_neg hfp]
      intro h
      exact absurd h (hUpart (by omega)).1
  · by_cases hfp : U = HI - LO
    · simp only [if_pos hfp]
      omega
    · simp only [if_neg hfp]
      omega
  · by_cases hfp : U = HI - LO
    · simp only [if_pos hfp]
      omega
    · simp only [if_neg hfp]
      omega
  · by_cases hfp : U = HI - LO
    · simp only [if_pos hfp]
      intro hlt2
      obtain ⟨h8, hle⟩ := hHInl (by omega)
      refine ⟨by omega, ?_, ?_⟩
      · rw [if_neg (by omega : ¬ ti + 1 = fb / 8)]
        omega
      · rw [if_neg (by omega : ¬ ti + 1 = fb / 8)]
        omega
    · simp only [if_neg hfp]
      intro hlt2
      obtain ⟨hSne, hUblib⟩ := hUpart (by omega)
      have hLObw := hOFF0 hSne
      refine ⟨by omega, ?_, ?_⟩
      · rw [if_neg hSne]
        omega
      · rw [if_neg hSne]
        omega
  · by_cases hfp : U = HI - LO
    · simp only [if_pos hfp]
      intro h
      have := hHIlast (by omega)
      omega
    · simp only [if_neg hfp]
      intro h
      exact absurd h (by omega)
  · by_cases hfp : U = HI - LO
    · -- the target byte was completed: no partially-written gap remains
      simp only [if_pos hfp]
      intro p hp
      rw [hb2 p]
      by_cases hpt : ti = p / 8
      · rw [if_pos hpt, hnb (p % 8) (by omega)]
        by_cases hk1 : LO ≤ p % 8 ∧ p % 8 < HI
        · rw [if_pos hk1, if_pos (by omega : p % 8 - LO < blib)]
          have hpfb : fb ≤ p := by omega
          have hple : p ≤ lb := by
            by_cases hL : ti = lb / 8
            · have := hHIlast hL
              omega
            · obtain ⟨h8, hle⟩ := hHInl hL
              omega
          rw [if_pos (⟨hpfb, hple⟩ : fb ≤ p ∧ p ≤ lb),
            if_pos (by omega : p < fb + (lb - fb + 1 - (bitsLeft - U)))]
          congr 1
          omega
        · rw [if_neg hk1,
            show (buf.getD ti 0).testBit (p % 8) = bitAt buf p from by
              unfold bitAt
              rw [hpt],
            hbit p hp]
          by_cases hfb : fb ≤ p ∧ p ≤ lb
          · rw [if_pos hfb, if_pos hfb]
            by_cases hpLO : p % 8 < LO
            · rw [if_pos (by omega : p < fb + (lb - fb + 1 - bitsLeft)),
                if_pos (by omega : p < fb + (lb - fb + 1 - (bitsLeft - U)))]
            · exfalso
              by_cases hL : ti = lb / 8
              · have := hHIlast hL
                omega
              · obtain ⟨h8, _⟩ := hHInl hL
                omega
          · rw [if_neg hfb, if_neg hfb]
      · rw [if_neg hpt, hbit p hp]
        by_cases hfb : fb ≤ p ∧ p ≤ lb
        · rw [if_pos hfb, if_pos hfb]
          by_cases h1 : p < fb + (lb - fb + 1 - bitsLeft)
          · rw [if_pos h1,
              if_pos (by omega : p < fb + (lb - fb + 1 - (bitsLeft - U)))]
          · rw [if_neg h1,
              if_neg (by omega : ¬ (0 < bw ∧ p < 8 * (ti + 1))),
              if_neg (by omega : ¬ p < fb + (lb - fb + 1 - (bitsLeft - U))),
              if_neg (by simp : ¬ ((0 : Nat) < 0 ∧ p < 8 * (ti + 1 + 1)))]
        · rw [if_neg hfb, if_neg hfb]
    · -- the target byte is only partially written: a zeroed gap remains
      simp only [if_neg hfp]
      obtain ⟨hSne, hUblib⟩ := hUpart (by omega)
      have hLObw := hOFF0 hSne
      intro p hp
      rw [hb2 p]
      by_cases hpt : ti = p / 8
      · rw [if_pos hpt, hnb (p % 8) (by omega)]
        by_cases hk1 : LO ≤ p % 8 ∧ p % 8 < HI
        · have hpfb : fb ≤ p := by omega
          have hple : p ≤ lb := by
            by_cases hL : ti = lb / 8
            · have := hHIlast hL
              omega
            · obtain ⟨h8, hle⟩ := hHInl hL
              omega
          rw [if_pos hk1, if_pos (⟨hpfb, hple⟩ : fb ≤ p ∧ p ≤ lb)]
          by_cases hkb : p % 8 - LO < blib
          · rw [if_pos hkb,
              if_pos (by omega : p < fb + (lb - fb + 1 - (bitsLeft - U)))]
            congr 1
            omega
          · rw [if_neg hkb,
              if_neg (by omega : ¬ p < fb + (lb - fb + 1 - (bitsLeft - U))),
              if_pos (⟨by omega, by omega⟩ :
                0 < bw + U ∧ p < 8 * (ti + 1))]
        · rw [if_neg hk1,
            show (buf.getD ti 0).testBit (p % 8) = bitAt buf p from by
              unfold bitAt
              rw [hpt],
            hbit p hp]
          by_cases hfb : fb ≤ p ∧ p ≤ lb
          · rw [if_pos hfb, if_pos hfb]
            by_cases hpLO : p % 8 < LO
            · rw [if_pos (by omega : p < fb + (lb - fb + 1 - bitsLeft)),
                if_pos (by omega : p < fb + (lb - fb + 1 - (bitsLeft - U)))]
            · exfalso
              by_cases hL : ti = lb / 8
              · have := hHIlast hL
                omega
              · obtain ⟨h8, _⟩ := hHInl hL
                omega
          · rw [if_neg hfb, if_neg hfb]
      · rw [if_neg hpt, hbit p hp]
        by_cases hfb : fb ≤ p ∧ p ≤ lb
        · rw [if_pos hfb, if_pos hfb]
          by_cases h1 : p < fb + (lb - fb + 1 - bitsLeft)
          · rw [if_pos h1,
              if_pos (by omega : p < fb + (lb - fb + 1 - (bitsLeft - U)))]
          · rw [if_neg h1,
              if_neg (by omega : ¬ (0 < bw ∧ p < 8 * (ti + 1))),
              if_neg (by omega : ¬ p < fb + (lb - fb + 1 - (bitsLeft - U))),
              if_neg (by omega : ¬ (0 < bw + U ∧ p < 8 * (ti + 1)))]
        · rw [if_neg hfb, if_neg hfb]

/-- One iteration of the setter loop preserves the loop invariant and
strictly decreases `bits_left`. -/
theorem fieldWriteStep_inv (fb lb v : Nat) (payload0 : List Nat)
    (hfl : fb ≤ lb) (hlen : lb < 8 * payload0.length)
    (st : WState) (hinv : WInv fb lb v payload0 st)
    (hlt : st.targetI < lb / 8 + 1) :
    WInv fb lb v payload0
      (fieldWriteStep fb lb (toBytes ((lb - fb + 1 + 7) / 8) v) st) ∧
    (fieldWriteStep fb lb (toBytes ((lb - fb + 1 + 7) / 8) v) st).bitsLeft
      < st.bitsLeft := by
  obtain ⟨buf, bitsLeft, blib, bw, si, ti⟩ := st
  obtain ⟨hblen, hblt, hbl, hblib1, hblib8, hsrc, hstart, hts, hte, hlive,
    hend, hbit⟩ := hinv
  dsimp only at hblen hblt hbl hblib1 hblib8 hsrc hstart hts hte hlive hend hbit hlt
  obtain ⟨hbl1, hpos, hbw8⟩ := hlive hlt
  have hoff8 : fb % 8 < 8 := Nat.mod_lt _ (by norm_num)
  -- abbreviations (all definitional)
  have hOFFr : offOf fb ⟨buf, bitsLeft, blib, bw, si, ti⟩ =
      (if ti = fb / 8 then fb % 8 else 0) := rfl
  have hLOr : loOf fb ⟨buf, bitsLeft, blib, bw, si, ti⟩ =
      offOf fb ⟨buf, bitsLeft, blib, bw, si, ti⟩ + bw := rfl
  have hHIr : hiOf fb lb ⟨buf, bitsLeft, blib, bw, si, ti⟩ =
      (if ti = lb / 8 then
        offOf fb ⟨buf, bitsLeft, blib, bw, si, ti⟩ + bw + bitsLeft else 8) := rfl
  -- mask facts
  obtain ⟨hmask, hlohi, hhi8⟩ := maskOf_eq fb lb ⟨buf, bitsLeft, blib, bw, si, ti⟩
    (fun h => (hstart h).1)
    (by intro hL
        dsimp only at hL ⊢
        rw [hOFFr]
        omega)
    (by dsimp only; rw [hOFFr]; omega)
    (by dsimp only; omega)
  have hbn : countOnes8 (maskOf fb lb ⟨buf, bitsLeft, blib, bw, si, ti⟩) =
      hiOf fb lb ⟨buf, bitsLeft, blib, bw, si, ti⟩ -
      loOf fb ⟨buf, bitsLeft, blib, bw, si, ti⟩ := by
    rw [hmask]
    exact countOnes8_window _ (by omega) _
      (by rw [hLOr, hOFFr]; split <;> omega) (le_of_lt hlohi)
  have hUmin : usedOf fb lb ⟨buf, bitsLeft, blib, bw, si, ti⟩ =
      min (hiOf fb lb ⟨buf, bitsLeft, blib, bw, si, ti⟩ -
           loOf fb ⟨buf, bitsLeft, blib, bw, si, ti⟩)
        (blib - offOf fb ⟨buf, bitsLeft, blib, bw, si, ti⟩) := by
    unfold usedOf
    rw [hbn]
  have hboff : 1 ≤ blib - offOf fb ⟨buf, bitsLeft, blib, bw, si, ti⟩ := by
    rw [hOFFr]
    by_cases hS : ti = fb / 8
    · have := (hstart hS).2.1
      rw [if_pos hS]
      omega
    · rw [if_neg hS]
      omega
  -- branch facts for HI
  have hHIcases :
      (ti = lb / 8 ∧ hiOf fb lb ⟨buf, bitsLeft, blib, bw, si, ti⟩ =
        offOf fb ⟨buf, bitsLeft, blib, bw, si, ti⟩ + bw + bitsLeft) ∨
      (¬ ti = lb / 8 ∧ hiOf fb lb ⟨buf, bitsLeft, blib, bw, si, ti⟩ = 8 ∧
        8 * (ti + 1) ≤ lb) := by
    by_cases hL : ti = lb / 8
    · exact Or.inl ⟨hL, by rw [hHIr, if_pos hL]⟩
    · refine Or.inr ⟨hL, by rw [hHIr, if_neg hL], by omega⟩
  have hOFFcases :
      (ti = fb / 8 ∧ offOf fb ⟨buf, bitsLeft, blib, bw, si, ti⟩ = fb % 8 ∧
        bw = 0 ∧ blib = 8 ∧ si = 0 ∧ bitsLeft = lb - fb + 1) ∨
      (¬ ti = fb / 8 ∧ offOf fb ⟨buf, bitsLeft, blib, bw, si, ti⟩ = 0 ∧
        fb / 8 < ti) := by
    by_cases hS : ti = fb / 8
    · obtain ⟨h1, h2, h3, h4⟩ := hstart hS
      exact Or.inl ⟨hS, by rw [hOFFr, if_pos hS], h1, h2, h3, h4⟩
    · exact Or.inr ⟨hS, by rw [hOFFr, if_neg hS], by omega⟩
  have hUle : usedOf fb lb ⟨buf, bitsLeft, blib, bw, si, ti⟩ ≤ bitsLeft ∧
      1 ≤ usedOf fb lb ⟨buf, bitsLeft, blib, bw, si, ti⟩ ∧
      usedOf fb lb ⟨buf, bitsLeft, blib, bw, si, ti⟩ ≤
        blib - offOf fb ⟨buf, bitsLeft, blib, bw, si, ti⟩ := by
    rw [hUmin]
    rcases hHIcases with ⟨hL, hHIv⟩ | ⟨hL, hHIv, hlb8⟩ <;>
      rcases hOFFcases with ⟨hS, hOFFv, h1, h2, h3, h4⟩ | ⟨hS, hOFFv, h5⟩ <;>
      omega
  have hfull_start : ti = fb / 8 →
      usedOf fb lb ⟨buf, bitsLeft, blib, bw, si, ti⟩ =
        hiOf fb lb ⟨buf, bitsLeft, blib, bw, si, ti⟩ -
        loOf fb ⟨buf, bitsLeft, blib, bw, si, ti⟩ := by
    intro hS
    rcases hOFFcases with ⟨_, hOFFv, h1, h2, h3, h4⟩ | ⟨hS2, _, _⟩
    · rw [hUmin]
      omega
    · exact absurd hS hS2
  -- source byte facts
  have hsi : si < (lb - fb + 1 + 7) / 8 := by omega
  have hsrclt : (toBytes ((lb - fb + 1 + 7) / 8) v).getD si 0 < 256 := by
    rw [toBytes_getD, if_pos hsi]
    exact Nat.mod_lt _ (by norm_num)
  -- the written byte, bit by bit
  have hnb : ∀ k, k < 8 →
      ((buf.getD ti 0 &&&
          (255 ^^^ maskOf fb lb ⟨buf, bitsLeft, blib, bw, si, ti⟩)) |||
        (valueOf (toBytes ((lb - fb + 1 + 7) / 8) v) fb
            ⟨buf, bitsLeft, blib, bw, si, ti⟩ &&&
          maskOf fb lb ⟨buf, bitsLeft, blib, bw, si, ti⟩)).testBit k =
      if loOf fb ⟨buf, bitsLeft, blib, bw, si, ti⟩ ≤ k ∧
          k < hiOf fb lb ⟨buf, bitsLeft, blib, bw, si, ti⟩ then
        (if k - loOf fb ⟨buf, bitsLeft, blib, bw, si, ti⟩ < blib then
          v.testBit ((lb - fb + 1) - bitsLeft +
            (k - loOf fb ⟨buf, bitsLeft, blib, bw, si, ti⟩))
         else false)
      else (buf.getD ti 0).testBit k := by
    intro k hk
    rw [writeByte_testBit _ _ _ _ hk, hmask,
      mask_testBit _ (by omega) _
        (by rw [hLOr, hOFFr]; split <;> omega) k hk (le_of_lt hlohi)]
    by_cases hin : loOf fb ⟨buf, bitsLeft, blib, bw, si, ti⟩ ≤ k ∧
        k < hiOf fb lb ⟨buf, bitsLeft, blib, bw, si, ti⟩
    · rw [if_pos (by simpa using hin), if_pos hin]
      show (valueOf (toBytes ((lb - fb + 1 + 7) / 8) v) fb
        ⟨buf, bitsLeft, blib, bw, si, ti⟩).testBit k = _
      unfold valueOf
      rw [value_testBit _ _ _ _ _ hsrclt hblib8 hk]
      rw [show offOf fb ⟨buf, bitsLeft, blib, bw, si, ti⟩ + bw =
        loOf fb ⟨buf, bitsLeft, blib, bw, si, ti⟩ from rfl]
      by_cases hkb : k - loOf fb ⟨buf, bitsLeft, blib, bw, si, ti⟩ < blib
      · rw [if_pos hkb]
        have he8 : 8 - blib +
            (k - loOf fb ⟨buf, bitsLeft, blib, bw, si, ti⟩) < 8 := by omega
        rw [toBytes_getD, if_pos hsi,
          show (256 : Nat) = 2 ^ 8 from rfl, Nat.testBit_mod_two_pow,
          ← Nat.shiftRight_eq_div_pow, Nat.testBit_shiftRight,
          show 8 * si + (8 - blib +
            (k - loOf fb ⟨buf, bitsLeft, blib, bw, si, ti⟩)) =
            (lb - fb + 1) - bitsLeft +
            (k - loOf fb ⟨buf, bitsLeft, blib, bw, si, ti⟩) from by omega]
        simp [hin.1, hkb, he8]
      · rw [if_neg hkb]
        simp [hkb]
    · rw [if_neg (by simpa using hin), if_neg hin]
  -- position facts expressed through `loOf` / `hiOf`
  have hposLO : 8 * ti + loOf fb ⟨buf, bitsLeft, blib, bw, si, ti⟩ =
      fb + ((lb - fb + 1) - bitsLeft) := by
    rw [hLOr, hOFFr]
    omega
  have hLO8 : loOf fb ⟨buf, bitsLeft, blib, bw, si, ti⟩ < 8 := by
    rw [hLOr, hOFFr]
    omega
  have hOFF0 : ¬ ti = fb / 8 →
      loOf fb ⟨buf, bitsLeft, blib, bw, si, ti⟩ = bw := by
    intro h
    rw [hLOr, hOFFr, if_neg h]
    omega
  have hHIlast : ti = lb / 8 →
      hiOf fb lb ⟨buf, bitsLeft, blib, bw, si, ti⟩ =
        loOf fb ⟨buf, bitsLeft, blib, bw, si, ti⟩ + bitsLeft := by
    intro hL
    rw [hHIr, if_pos hL, hLOr]
  have hHInl : ¬ ti = lb / 8 →
      hiOf fb lb ⟨buf, bitsLeft, blib, bw, si, ti⟩ = 8 ∧ 8 * (ti + 1) ≤ lb := by
    intro hL
    exact ⟨by rw [hHIr, if_neg hL], by omega⟩
  have hU2 : usedOf fb lb ⟨buf, bitsLeft, blib, bw, si, ti⟩ ≤
      hiOf fb lb ⟨buf, bitsLeft, blib, bw, si, ti⟩ -
      loOf fb ⟨buf, bitsLeft, blib, bw, si, ti⟩ := by
    rw [hUmin]
    omega
  have hU3 : usedOf fb lb ⟨buf, bitsLeft, blib, bw, si, ti⟩ ≤ blib := by
    have := hUle.2.2
    omega
  have hUpart : usedOf fb lb ⟨buf, bitsLeft, blib, bw, si, ti⟩ <
      hiOf fb lb ⟨buf, bitsLeft, blib, bw, si, ti⟩ -
      loOf fb ⟨buf, bitsLeft, blib, bw, si, ti⟩ →
      ¬ ti = fb / 8 ∧
      usedOf fb lb ⟨buf, bitsLeft, blib, bw, si, ti⟩ = blib := by
    intro hplt
    have hS : ¬ ti = fb / 8 := by
      intro h
      rw [hfull_start h] at hplt
      omega
    refine ⟨hS, ?_⟩
    have hOFFz : offOf fb ⟨buf, bitsLeft, blib, bw, si, ti⟩ = 0 := by
      rw [hOFFr, if_neg hS]
    rw [hUmin, hOFFz] at hplt ⊢
    omega
  have hM256 : maskOf fb lb ⟨buf, bitsLeft, blib, bw, si, ti⟩ < 256 := by
    rw [hmask]
    have h1 : 2 ^ hiOf fb lb ⟨buf, bitsLeft, blib, bw, si, ti⟩ ≤ 2 ^ 8 :=
      Nat.pow_le_pow_right (by norm_num) hhi8
    have h2 : 1 ≤ 2 ^ loOf fb ⟨buf, bitsLeft, blib, bw, si, ti⟩ :=
      Nat.one_le_two_pow
    omega
  have hNB256 : ((buf.getD ti 0 &&&
      (255 ^^^ maskOf fb lb ⟨buf, bitsLeft, blib, bw, si, ti⟩)) |||
      (valueOf (toBytes ((lb - fb + 1 + 7) / 8) v) fb
          ⟨buf, bitsLeft, blib, bw, si, ti⟩ &&&
        maskOf fb lb ⟨buf, bitsLeft, blib, bw, si, ti⟩)) < 256 := by
    have hhigh : ∀ i, 8 ≤ i →
        ((buf.getD ti 0 &&&
          (255 ^^^ maskOf fb lb ⟨buf, bitsLeft, blib, bw, si, ti⟩)) |||
          (valueOf (toBytes ((lb - fb + 1 + 7) / 8) v) fb
              ⟨buf, bitsLeft, blib, bw, si, ti⟩ &&&
            maskOf fb lb ⟨buf, bitsLeft, blib, bw, si, ti⟩)).testBit i =
          false := by
      intro i hi
      rw [Nat.testBit_lor, Nat.testBit_land, Nat.testBit_land,
        testBit_false_of_lt_256 (hblt ti) hi,
        testBit_false_of_lt_256 hM256 hi]
      simp
    exact lt_of_lt_of_le (lt_two_pow_of_high_bits hhigh) (by norm_num)
  have hrec : fieldWriteStep fb lb (toBytes ((lb - fb + 1 + 7) / 8) v)
      ⟨buf, bitsLeft, blib, bw, si, ti⟩ =
      ⟨buf.set ti ((buf.getD ti 0 &&&
          (255 ^^^ maskOf fb lb ⟨buf, bitsLeft, blib, bw, si, ti⟩)) |||
          (valueOf (toBytes ((lb - fb + 1 + 7) / 8) v) fb
              ⟨buf, bitsLeft, blib, bw, si, ti⟩ &&&
            maskOf fb lb ⟨buf, bitsLeft, blib, bw, si, ti⟩)),
        bitsLeft - usedOf fb lb ⟨buf, bitsLeft, blib, bw, si, ti⟩,
        (if blib > usedOf fb lb ⟨buf, bitsLeft, blib, bw, si, ti⟩ then
          blib - usedOf fb lb ⟨buf, bitsLeft, blib, bw, si, ti⟩
         else 8 - (usedOf fb lb ⟨buf, bitsLeft, blib, bw, si, ti⟩ - blib)),
        (if usedOf fb lb ⟨buf, bitsLeft, blib, bw, si, ti⟩ =
            hiOf fb lb ⟨buf, bitsLeft, blib, bw, si, ti⟩ -
            loOf fb ⟨buf, bitsLeft, blib, bw, si, ti⟩ then 0
         else bw + usedOf fb lb ⟨buf, bitsLeft, blib, bw, si, ti⟩),
        (if blib > usedOf fb lb ⟨buf, bitsLeft, blib, bw, si, ti⟩ then si
         else si + 1),
        (if usedOf fb lb ⟨buf, bitsLeft, blib, bw, si, ti⟩ =
            hiOf fb lb ⟨buf, bitsLeft, blib, bw, si, ti⟩ -
            loOf fb ⟨buf, bitsLeft, blib, bw, si, ti⟩ then ti + 1
         else ti)⟩ := by
    simp only [fieldWriteStep, hbn]
  rw [hrec]
  constructor
  · exact step_invariant_conclusion fb lb v payload0 buf bitsLeft blib bw si ti
      (loOf fb ⟨buf, bitsLeft, blib, bw, si, ti⟩)
      (hiOf fb lb ⟨buf, bitsLeft, blib, bw, si, ti⟩)
      (usedOf fb lb ⟨buf, bitsLeft, blib, bw, si, ti⟩) _
      hfl hlen hblen hblt hbl hblib1 hblib8 hsrc hstart hOFF0 hts hlt hbl1
      hposLO hLO8 hlohi hhi8 hHIlast hHInl hUle.2.1 hU2 hU3 hfull_start
      hUpart hUle.1 hNB256 hnb hbit
  · dsimp only
    have := hUle.2.1
    omega

/-- Bit-level characterization of the generated field accessor: bit `i` of
the decoded value is bit `fb + i` of the payload for `i` within the field
width, and zero above it.  The `size` hypothesis states that the target
type's byte count is the minimal one covering the field width, which holds
for every field of every register declared in `src/ll.rs`. -/
theorem fieldRead_testBit (fb lb size : Nat) (payload : List Nat)
    (hfl : fb ≤ lb) (hlen : lb < 8 * payload.length)
    (hsize : size = (lb - fb + 1 + 7) / 8)
    (hb : ∀ j, payload.getD j 0 < 256) (i : Nat) :
    (fieldRead fb lb size payload).testBit i =
      (decide (i < lb - fb + 1) && bitAt payload (fb + i)) := by
  have hoff8 : fb % 8 < 8 := Nat.mod_lt _ (by norm_num)
  have hfb : fb = 8 * (fb / 8) + fb % 8 := by omega
  -- slice facts
  have hbytes_getD : ∀ j,
      ((payload.drop (fb / 8)).take (lb / 8 + 1 - fb / 8)).getD j 0 =
        if j < lb / 8 + 1 - fb / 8 then payload.getD (fb / 8 + j) 0 else 0 :=
    fun j => getD_slice payload (fb / 8) (lb / 8 + 1 - fb / 8) j
  have hbytes_lt : ∀ j,
      ((payload.drop (fb / 8)).take (lb / 8 + 1 - fb / 8)).getD j 0 < 256 := by
    intro j
    rw [hbytes_getD j]
    split
    · exact hb _
    · norm_num
  have hbytes_len :
      ((payload.drop (fb / 8)).take (lb / 8 + 1 - fb / 8)).length =
        lb / 8 + 1 - fb / 8 := by
    rw [List.length_take, List.length_drop]
    omega
  -- shifted facts
  have hsh_lt : ∀ j,
      (decodeShift (fb % 8)
        ((payload.drop (fb / 8)).take (lb / 8 + 1 - fb / 8))).getD j 0 < 256 := by
    intro j
    rw [decodeShift_getD]
    apply lor_lt_256
    · calc _ ≤ ((payload.drop (fb / 8)).take (lb / 8 + 1 - fb / 8)).getD j 0 := by
            rw [Nat.shiftRight_eq_div_pow]
            exact Nat.div_le_self _ _
        _ < 256 := hbytes_lt j
    · exact Nat.mod_lt _ (by norm_num)
  have hsh_len :
      (decodeShift (fb % 8)
        ((payload.drop (fb / 8)).take (lb / 8 + 1 - fb / 8))).length =
        lb / 8 + 1 - fb / 8 := by
    rw [decodeShift_length]
    exact hbytes_len
  -- a shifted byte's bit `k` is the payload bit at absolute position
  -- `8 * (fb/8 + j) + k + fb % 8`, when that position stays within the slice
  have hsh_bit : ∀ j k, k < 8 → 8 * j + k + fb % 8 < 8 * (lb / 8 + 1 - fb / 8) →
      ((decodeShift (fb % 8)
        ((payload.drop (fb / 8)).take (lb / 8 + 1 - fb / 8))).getD j 0).testBit k =
      bitAt payload (fb + 8 * j + k) := by
    intro j k hk hpos
    rw [decodeShift_getD,
      shifted_byte_testBit (hbytes_lt j) hoff8 hk]
    by_cases hko : k + fb % 8 < 8
    · rw [if_pos hko, hbytes_getD j, if_pos (by omega)]
      show (payload.getD (fb / 8 + j) 0).testBit (k + fb % 8) = _
      unfold bitAt
      have h1 : (fb + 8 * j + k) / 8 = fb / 8 + j := by omega
      have h2 : (fb + 8 * j + k) % 8 = k + fb % 8 := by omega
      rw [h1, h2]
    · rw [if_neg hko, hbytes_getD (j + 1), if_pos (by omega)]
      show (payload.getD (fb / 8 + (j + 1)) 0).testBit (k + fb % 8 - 8) = _
      unfold bitAt
      have h1 : (fb + 8 * j + k) / 8 = fb / 8 + (j + 1) := by omega
      have h2 : (fb + 8 * j + k) % 8 = k + fb % 8 - 8 := by omega
      rw [h1, h2]
  -- masked byte facts
  have hmask_getD : ∀ j,
      (maskLast (lb - fb + 1) size
        (decodeShift (fb % 8)
          ((payload.drop (fb / 8)).take (lb / 8 + 1 - fb / 8)))).getD j 0 =
      if (lb - fb + 1) % 8 ≠ 0 ∧ j = size - 1 then
        (decodeShift (fb % 8)
          ((payload.drop (fb / 8)).take (lb / 8 + 1 - fb / 8))).getD (size - 1) 0 %
          2 ^ ((lb - fb + 1) % 8)
      else
        (decodeShift (fb % 8)
          ((payload.drop (fb / 8)).take (lb / 8 + 1 - fb / 8))).getD j 0 := by
    intro j
    rw [maskLast_getD _ _ _ _ (by rw [hsh_len]; omega)]
    split
    · rw [shl_mod_shr _ _ (by omega),
        show 8 - (8 - (lb - fb + 1) % 8) = (lb - fb + 1) % 8 from by omega]
    · rfl
  have hmask_lt : ∀ j,
      (maskLast (lb - fb + 1) size
        (decodeShift (fb % 8)
          ((payload.drop (fb / 8)).take (lb / 8 + 1 - fb / 8)))).getD j 0 < 256 := by
    intro j
    rw [hmask_getD j]
    split
    · calc _ ≤ (decodeShift (fb % 8)
            ((payload.drop (fb / 8)).take (lb / 8 + 1 - fb / 8))).getD (size - 1) 0 :=
            Nat.mod_le _ _
        _ < 256 := hsh_lt _
    · exact hsh_lt j
  -- assemble
  show (fromBytes size
      (maskLast (lb - fb + 1) size
        (decodeShift (fb % 8)
          ((payload.drop (fb / 8)).take (lb / 8 + 1 - fb / 8))))).testBit i = _
  rw [fromBytes_testBit size _ hmask_lt i]
  rcases Nat.lt_or_ge i (lb - fb + 1) with hiW | hiW
  · -- field bit: both sides live
    have hq : i / 8 < size := by omega
    rw [hmask_getD (i / 8)]
    have hbit :
        ((decodeShift (fb % 8)
          ((payload.drop (fb / 8)).take (lb / 8 + 1 - fb / 8))).getD (i / 8) 0).testBit
          (i % 8) = bitAt payload (fb + i) := by
      have h8 : 8 * (i / 8) + i % 8 + fb % 8 < 8 * (lb / 8 + 1 - fb / 8) := by
        omega
      have := hsh_bit (i / 8) (i % 8) (by omega) h8
      rw [this]
      congr 1
      omega
    split
    · rename_i hcond
      rw [Nat.testBit_mod_two_pow]
      have hrem : i % 8 < (lb - fb + 1) % 8 := by omega
      rw [← hcond.2, hbit]
      simp [hrem, hiW]
      exact fun _ => hq
    · rw [hbit]
      simp [hiW]
      exact fun _ => hq
  · -- above the field: both sides are false
    rcases Nat.lt_or_ge i (8 * size) with hi8 | hi8
    · -- inside the masked byte, above the field width
      have hq : i / 8 < size := by omega
      have hW8 : (lb - fb + 1) % 8 ≠ 0 := by omega
      have hqlast : i / 8 = size - 1 := by omega
      rw [hmask_getD (i / 8), if_pos ⟨hW8, hqlast⟩, Nat.testBit_mod_two_pow]
      have hrem : ¬ i % 8 < (lb - fb + 1) % 8 := by omega
      simp [hrem, Nat.not_lt.mpr hiW]
    · have hq : ¬ i / 8 < size := by omega
      simp [hq, Nat.not_lt.mpr hiW]

/-- Running the setter loop from any state satisfying the invariant, with
fuel exceeding `bits_left`, produces the buffer holding the field bits of
`v` over `[fb, lb]` and the original payload everywhere else. -/
theorem fieldWriteLoop_spec (fb lb v : Nat) (payload0 : List Nat)
    (hfl : fb ≤ lb) (hlen : lb < 8 * payload0.length) :
    ∀ fuel (st : WState), WInv fb lb v payload0 st → st.bitsLeft < fuel →
    (fieldWriteLoop fb lb (toBytes ((lb - fb + 1 + 7) / 8) v) fuel st).length
        = payload0.length ∧
    (∀ j, (fieldWriteLoop fb lb (toBytes ((lb - fb + 1 + 7) / 8) v) fuel
        st).getD j 0 < 256) ∧
    (∀ p, p < 8 * payload0.length →
      bitAt (fieldWriteLoop fb lb (toBytes ((lb - fb + 1 + 7) / 8) v) fuel st)
          p =
        if fb ≤ p ∧ p ≤ lb then v.testBit (p - fb) else bitAt payload0 p) := by
  intro fuel
  induction fuel with
  | zero =>
    intro st _ hfuel
    exact absurd hfuel (by omega)
  | succ fuel ih =>
    intro st hinv hfuel
    by_cases hti : st.targetI < lb / 8 + 1
    · rw [show fieldWriteLoop fb lb (toBytes ((lb - fb + 1 + 7) / 8) v)
          (fuel + 1) st =
        fieldWriteLoop fb lb (toBytes ((lb - fb + 1 + 7) / 8) v) fuel
          (fieldWriteStep fb lb (toBytes ((lb - fb + 1 + 7) / 8) v) st) from by
        simp only [fieldWriteLoop]
        rw [if_pos hti]]
      obtain ⟨hinv2, hdec⟩ := fieldWriteStep_inv fb lb v payload0 hfl hlen st
        hinv hti
      exact ih _ hinv2 (by omega)
    · rw [show fieldWriteLoop fb lb (toBytes ((lb - fb + 1 + 7) / 8) v)
          (fuel + 1) st = st.buf from by
        simp only [fieldWriteLoop]
        rw [if_neg hti]]
      obtain ⟨hblen, hblt, hbl, _, _, _, _, _, hte, _, hend, hbit⟩ := hinv
      have hzero : st.bitsLeft = 0 := hend (by omega)
      refine ⟨hblen, hblt, fun p hp => ?_⟩
      rw [hbit p hp]
      by_cases hfb : fb ≤ p ∧ p ≤ lb
      · rw [if_pos hfb, if_pos hfb, if_pos (by omega)]
      · rw [if_neg hfb, if_neg hfb]

/-- The invariant holds at the setter's initial state. -/
theorem fieldWrite_init_inv (fb lb v : Nat) (payload : List Nat)
    (hfl : fb ≤ lb) (hb : ∀ j, payload.getD j 0 < 256) :
    WInv fb lb v payload ⟨payload, lb - fb + 1, 8, 0, 0, fb / 8⟩ := by
  unfold WInv
  dsimp only
  refine ⟨rfl, hb, by omega, by omega, by omega, by omega,
    fun _ => ⟨rfl, rfl, rfl, rfl⟩, le_refl _, by omega, ?_, by omega,
    fun p hp => ?_⟩
  · intro _
    refine ⟨by omega, ?_, ?_⟩
    · rw [if_pos rfl]
      omega
    · rw [if_pos rfl]
      omega
  · by_cases hfb : fb ≤ p ∧ p ≤ lb
    · rw [if_pos hfb, if_neg (by omega),
        if_neg (by simp : ¬ ((0 : Nat) < 0 ∧ p < 8 * (fb / 8 + 1)))]
    · rw [if_neg hfb]

/-- Bit-level characterization of the generated field setter: it writes the
low `lastBit - firstBit + 1` bits of `v` into payload bit positions
`firstBit ..= lastBit` and leaves every other bit (and the buffer length)
unchanged. -/
theorem fieldWrite_bitAt (fb lb size : Nat) (payload : List Nat) (v : Nat)
    (hfl : fb ≤ lb) (hlen : lb < 8 * payload.length)
    (hsize : size = (lb - fb + 1 + 7) / 8)
    (hb : ∀ j, payload.getD j 0 < 256) :
    (fieldWrite fb lb size payload v).length = payload.length ∧
    (∀ j, (fieldWrite fb lb size payload v).getD j 0 < 256) ∧
    (∀ p, p < 8 * payload.length →
      bitAt (fieldWrite fb lb size payload v) p =
        if fb ≤ p ∧ p ≤ lb then v.testBit (p - fb) else bitAt payload p) := by
  subst hsize
  exact fieldWriteLoop_spec fb lb v payload hfl hlen (lb - fb + 2)
    ⟨payload, lb - fb + 1, 8, 0, 0, fb / 8⟩
    (fieldWrite_init_inv fb lb v payload hfl hb)
    (by dsimp only; omega)

theorem getD_lt_of_Bytes {payload : List Nat} (h : Bytes payload) :
    ∀ j, payload.getD j 0 < 256 := by
  intro j
  rw [List.getD_eq_getElem?_getD]
  cases he : payload[j]? with
  | none => simp
  | some a =>
    simp only [Option.getD_some]
    exact h a (List.getElem?_mem he)

/-- C9 witness: with the first OTP word zero the trace stops after the
first read; with both words equal to 3 the LDOTUNE write carries
`3 | 3 << 32` and splits back into halves 3 and 3. -/
theorem ldotune_config_spec_witness :
    ldotuneConfig (fun _ => 0) =
      [.otpAddrWrite 0x004, .otpCtrlModify, .otpCtrlRead, .otpRdatRead] ∧
    (3 ||| (3 <<< 32)) % 2 ^ 32 = 3 ∧ (3 ||| (3 <<< 32)) / 2 ^ 32 = 3 := by
  refine ⟨((ldotune_config_spec (fun _ => 0)).1 rfl).1, ?_⟩
  have h := ((ldotune_config_spec (fun _ => 3)).2 (by norm_num)).2
    (by norm_num)
  exact h

/-- C1: for every register field with valid bit range (`firstBit ≤ lastBit`,
span within the register payload, `size` the field's declared byte count,
which in the register table always equals `ceil(width / 8)`) and every value
`v` that fits in the field, writing `v` with the generated setter and reading
it back with the generated accessor yields `v`, and the setter leaves the
payload length and every bit outside the field's span unchanged. -/
theorem field_roundtrip (firstBit lastBit size : Nat) (payload : List Nat)
    (v : Nat) (h1 : firstBit ≤ lastBit) (h2 : lastBit < 8 * payload.length)
    (h3 : size = (lastBit - firstBit + 1 + 7) / 8) (h4 : Bytes payload)
    (h5 : v < 2 ^ (lastBit - firstBit + 1)) :
    fieldRead firstBit lastBit size
        (fieldWrite firstBit lastBit size payload v) = v ∧
    (∀ p, p < 8 * payload.length → (p < firstBit ∨ lastBit < p) →
      bitAt (fieldWrite firstBit lastBit size payload v) p = bitAt payload p) ∧
    (fieldWrite firstBit lastBit size payload v).length = payload.length := by
  have hb := getD_lt_of_Bytes h4
  obtain ⟨hwlen, hwb, hwbit⟩ :=
    fieldWrite_bitAt firstBit lastBit size payload v h1 h2 h3 hb
  refine ⟨?_, ?_, hwlen⟩
  · apply Nat.eq_of_testBit_eq
    intro i
    rw [fieldRead_testBit firstBit lastBit size _ h1 (by rw [hwlen]; exact h2)
      h3 hwb i]
    by_cases hi : i < lastBit - firstBit + 1
    · rw [hwbit (firstBit + i) (by omega), if_pos ⟨by omega, by omega⟩,
        Nat.add_sub_cancel_left]
      simp [hi]
    · have hv : v.testBit i = false :=
        Nat.testBit_eq_false_of_lt (lt_of_lt_of_le h5
          (Nat.pow_le_pow_right (by norm_num) (by omega)))
      simp [hi, hv]
  · intro p hp hout
    rw [hwbit p hp, if_neg (by omega)]

/-- C1 witness: writing `0x1234` into bits `4 ..= 19` of the 3-byte payload
`[0xAB, 0xCD, 0xEF]` reads back as `0x1234`, and bit 2 — outside the span —
is unchanged. -/
theorem field_roundtrip_witness :
    fieldRead 4 19 2 (fieldWrite 4 19 2 [0xAB, 0xCD, 0xEF] 0x1234) = 0x1234 ∧
    bitAt (fieldWrite 4 19 2 [0xAB, 0xCD, 0xEF] 0x1234) 2 =
      bitAt [0xAB, 0xCD, 0xEF] 2 := by
  have h := field_roundtrip 4 19 2 [0xAB, 0xCD, 0xEF] 0x1234 (by norm_num)
    (by norm_num) (by norm_num) (by unfold Bytes; decide) (by norm_num)
  exact ⟨h.1, h.2.1 2 (by norm_num) (Or.inl (by norm_num))⟩

/-- The accessor's result always fits in the field's width. -/
theorem fieldRead_lt (fb lb size : Nat) (payload : List Nat)
    (hfl : fb ≤ lb) (hlen : lb < 8 * payload.length)
    (hsize : size = (lb - fb + 1 + 7) / 8)
    (hb : ∀ j, payload.getD j 0 < 256) :
    fieldRead fb lb size payload < 2 ^ (lb - fb + 1) := by
  have h : fieldRead fb lb size payload % 2 ^ (lb - fb + 1)
      = fieldRead fb lb size payload := by
    apply Nat.eq_of_testBit_eq
    intro i
    rw [Nat.testBit_mod_two_pow,
      fieldRead_testBit fb lb size payload hfl hlen hsize hb i]
    by_cases hi : i < lb - fb + 1
    · simp [hi]
    · simp [hi]
  calc fieldRead fb lb size payload
      = fieldRead fb lb size payload % 2 ^ (lb - fb + 1) := h.symm
    _ < 2 ^ (lb - fb + 1) := Nat.mod_lt _ (by positivity)

/-- C10: the TX antenna delay field is 16 bits wide and the receive/system
timestamp fields are 40 bits wide, so every value decoded from those register
payloads is at most `TIME_MAX = 2 ^ 40 - 1`, and the `Duration::new` /
`Instant::new` constructions inside `get_tx_antenna_delay`, `wait_reception`
and `sys_time` always succeed — the `unwrap` calls on them never panic. -/
theorem timestamp_constructions_succeed :
    (∀ payload : List Nat, payload.length = 2 → Bytes payload →
      (Duration.new (fieldRead 0 15 2 payload)).isSome = true) ∧
    (∀ payload : List Nat, payload.length = 14 → Bytes payload →
      (Instant.new (fieldRead 0 39 5 payload)).isSome = true) ∧
    (∀ payload : List Nat, payload.length = 5 → Bytes payload →
      (Instant.new (fieldRead 0 39 5 payload)).isSome = true) := by
  refine ⟨fun payload hlen h4 => ?_, fun payload hlen h4 => ?_,
    fun payload hlen h4 => ?_⟩
  · have h : fieldRead 0 15 2 payload < 2 ^ 16 := by
      simpa using fieldRead_lt 0 15 2 payload (by norm_num)
        (by rw [hlen]; norm_num) (by norm_num) (getD_lt_of_Bytes h4)
    simp only [Duration.new, TIME_MAX]
    rw [if_pos (by omega)]
    rfl
  · have h : fieldRead 0 39 5 payload < 2 ^ 40 := by
      simpa using fieldRead_lt 0 39 5 payload (by norm_num)
        (by rw [hlen]; norm_num) (by norm_num) (getD_lt_of_Bytes h4)
    simp only [Instant.new, TIME_MAX]
    rw [if_pos (by omega)]
    rfl
  · have h : fieldRead 0 39 5 payload < 2 ^ 40 := by
      simpa using fieldRead_lt 0 39 5 payload (by norm_num)
        (by rw [hlen]; norm_num) (by norm_num) (getD_lt_of_Bytes h4)
    simp only [Instant.new, TIME_MAX]
    rw [if_pos (by omega)]
    rfl

/-- C10 witness: the all-ones payloads — the worst case for each field —
still construct successfully. -/
theorem timestamp_constructions_succeed_witness :
    (Duration.new (fieldRead 0 15 2 [0xFF, 0xFF])).isSome = true ∧
    (Instant.new (fieldRead 0 39 5 (List.replicate 14 0xFF))).isSome = true ∧
    (Instant.new (fieldRead 0 39 5 [0xFF, 0xFF, 0xFF, 0xFF, 0xFF])).isSome
        = true := by
  refine ⟨timestamp_constructions_succeed.1 [0xFF, 0xFF] rfl
      (by unfold Bytes; decide),
    timestamp_constructions_succeed.2.1 (List.replicate 14 0xFF) rfl
      (by unfold Bytes; decide),
    timestamp_constructions_succeed.2.2 [0xFF, 0xFF, 0xFF, 0xFF, 0xFF] rfl
      (by unfold Bytes; decide)⟩

end Dw1000
